import Mathlib

/-!
Verification of the FIM span-extraction and example-assembly pipeline
(python packages `fim` and `generate` of this repository).

Modelling conventions:
* Python strings are modelled as `List Char` (named `Str` below); Python
  byte offsets and `str` indices are identified, which is exact for ASCII
  sources (the pipeline itself mixes the two, see `generate/_spans_devbehavior.py`).
* `random` is modelled by an explicit oracle (`Rng`) supplying the numbers
  the library calls would draw; every theorem about a randomised function
  quantifies over the oracle.
* tree-sitter parse trees are modelled by the inductive `PyNode`; parsing
  itself is an external library call, so functions that parse internally are
  embedded as functions of the resulting tree.
* `fim/types.py` declares `CodeSpan` and `FIMExample` WITHOUT the
  `skip_quality_filters` field that `generate/_spans_devbehavior.py`,
  `generate/_fim.py` and `generate/_quality.py` construct and read (see the
  C1 theorems, which model the resulting AttributeError/TypeError).  The
  structures below include the field, following the spec's data model, so
  that those modules can be embedded and their algorithmic content settled.
-/

set_option maxRecDepth 100000

abbrev Str := List Char

/-- Python `str` whitespace (the characters `str.strip`/`str.split` treat as
whitespace; the ASCII ones suffice for this development). -/
def isPyWs (c : Char) : Bool :=
  c = ' ' || c = '\t' || c = '\n' || c = '\r' || c = '\x0b' || c = '\x0c'

/-- Python `s.lstrip()`. -/
def pyLStrip (s : Str) : Str := s.dropWhile isPyWs

/-- Python `s.rstrip()`. -/
def pyRStrip (s : Str) : Str := (s.reverse.dropWhile isPyWs).reverse

/-- Python `s.strip()`. -/
def pyStrip (s : Str) : Str := pyRStrip (pyLStrip s)

/-- Helper for `pyWords`: accumulates the current word reversed. -/
def pyWordsAux : Str → Str → List Str
  | [], cur => if cur.isEmpty then [] else [cur.reverse]
  | c :: t, cur =>
    if isPyWs c then
      if cur.isEmpty then pyWordsAux t [] else cur.reverse :: pyWordsAux t []
    else pyWordsAux t (c :: cur)

/-- Python `s.split()` (split on whitespace runs, no empty words). -/
def pyWords (s : Str) : List Str := pyWordsAux s []

/-- Python `s.split("\n")` (keeps empty pieces; never returns `[]`). -/
def splitNl : Str → List Str
  | [] => [[]]
  | c :: t =>
    if c = '\n' then [] :: splitNl t
    else
      match splitNl t with
      | [] => [[c]]
      | h :: r => (c :: h) :: r

/-- Python `"\n".join(xs)`. -/
def joinNl (xs : List Str) : Str := List.intercalate ['\n'] xs

/-- Python `s[a:b]` for nonnegative bounds (clipping semantics). -/
def pySlice (s : Str) (a b : Nat) : Str := (s.drop a).take (b - a)

/-- First index at which `pat` occurs in `s` (Python `s.find(pat)`, as an
`Option`). -/
def findSub : Str → Str → Option Nat
  | s, pat =>
    if pat.isPrefixOf s then some 0
    else
      match s with
      | [] => none
      | _ :: t => (findSub t pat).map (· + 1)

/-- Python `pat in s`. -/
def containsSub (s pat : Str) : Bool := (findSub s pat).isSome

/-- Python `s.startswith(p)` for one candidate. -/
def pyStartsWith (s p : Str) : Bool := p.isPrefixOf s

/-- Python `s.startswith((p1, p2, ...))`. -/
def pyStartsWithAny (s : Str) (ps : List Str) : Bool := ps.any (pyStartsWith s)

/-- Python `s.startswith(p)` on the `String`-typed fields (`kind` etc.);
stated over the character lists so that it evaluates in the kernel. -/
def strStartsWith (s p : String) : Bool := p.toList.isPrefixOf s.toList

/-- Oracle standing in for the process-wide `random` state: a stream of
numbers; each library call consumes one. -/
structure Rng where
  vals : List Nat
deriving Repr, DecidableEq

def Rng.next : Rng → Nat × Rng
  | ⟨[]⟩ => (0, ⟨[]⟩)
  | ⟨v :: r⟩ => (v, ⟨r⟩)

/-- `random.randint(a, b)` (both ends inclusive; call sites guarantee
`a ≤ b`): the oracle value is reduced into the range. -/
def pyRandint (a b : Nat) (g : Rng) : Nat × Rng :=
  let (v, g') := g.next
  (a + v % (b + 1 - a), g')

/-- `random.choice(xs)` (call sites guard against `xs = []`). -/
def pyChoice {α : Type} (xs : List α) (g : Rng) : Option α × Rng :=
  let (v, g') := g.next
  (xs.get? (v % xs.length), g')

/-! ## Data model (`fim/types.py`), as consumed by `generate/*`

The field `skipQualityFilters` is present here because the `generate`
modules construct and read it; `fim/types.py` itself does not declare it —
that discrepancy is claim C1's subject, modelled below via the literal field
lists `codeSpanPyFields` / `fimExamplePyFields`. -/

structure CodeSpan where
  kind : String
  startLine : Nat
  endLine : Nat
  name : Str := []
  indent : Nat := 0
  startByte : Int := -1
  endByte : Int := -1
  skipQualityFilters : List String := []
deriving Repr, DecidableEq

structure FIMExample where
  filepath : String
  spanKind : String
  spanName : Str
  pre : Str
  mid : Str
  suf : Str
  xfCtx : Str := []
  complexityScore : ℚ := 0
  middleLines : Nat := 0
  totalLines : Nat := 0
  skipQualityFilters : List String := []
deriving Repr, DecidableEq

def MIN_MIDDLE_WORDS : Nat := 3

/-! ## Python dataclass/call semantics needed for the C1 and C3 findings -/

/-- The fields `fim/types.py` actually declares on the `CodeSpan` dataclass
(lines 51-60). -/
def codeSpanPyFields : List String :=
  ["kind", "start_line", "end_line", "name", "indent", "start_byte", "end_byte"]

/-- The fields `fim/types.py` actually declares on the `FIMExample` dataclass
(lines 63-77). -/
def fimExamplePyFields : List String :=
  ["filepath", "span_kind", "span_name", "prefix", "middle", "suffix",
   "cross_file_context", "complexity_score", "middle_lines", "total_lines"]

/-- The parameters `extract_spans_regex` declares
(`generate/_spans_regex.py`, line 7: `def extract_spans_regex(source: str)`). -/
def extractSpansRegexPyParams : List String := ["source"]

inductive PyErr where
  | typeErr (msg : String)
  | attrErr (msg : String)
deriving Repr, DecidableEq

/-- Python attribute lookup on a dataclass instance whose declared fields are
`fields`: it succeeds exactly when the attribute is a declared field (none of
the dataclasses in `fim/types.py` gains attributes dynamically on the
pipeline's code paths). -/
def pyHasAttr (fields : List String) (attr : String) : Bool := fields.contains attr

/-- Python keyword-argument check: a call raises `TypeError` unless every
keyword argument names a declared parameter (or dataclass field, for a
dataclass constructor). -/
def pyKwargsAccepted (params kwargs : List String) : Bool :=
  kwargs.all params.contains

/-- `filter_low_quality_examples` (`generate/_quality.py`, lines 131-221),
checked against the fields `FIMExample` declares in `fim/types.py`: the first
statement of its loop body is `skip = ex.skip_quality_filters` (line 149).
Result: `ok` when the loop body never performs a failing attribute access. -/
def filter_low_quality_examples_fieldAccess (examples : List FIMExample) :
    Except PyErr Unit :=
  match examples with
  | [] => .ok ()
  | _ :: _ =>
    if pyHasAttr fimExamplePyFields "skip_quality_filters" then .ok ()
    else .error (.attrErr "FIMExample object has no attribute skip_quality_filters")

/-- The doc-comment span construction (`generate/_spans_devbehavior.py`,
lines 317-324) calls the `CodeSpan` dataclass constructor with the keyword
argument `skip_quality_filters`; this models that single call, checked
against the fields `CodeSpan` declares in `fim/types.py`. -/
def generate_doc_comment_spans_construct (startChar endChar : Nat)
    (startLine endLine : Nat) : Except PyErr CodeSpan :=
  if pyKwargsAccepted codeSpanPyFields
      ["kind", "start_line", "end_line", "start_byte", "end_byte",
       "skip_quality_filters"] then
    .ok { kind := "dev_doc_comment", startLine := startLine, endLine := endLine,
          startByte := startChar, endByte := endChar,
          skipQualityFilters := ["comment_only"] }
  else
    .error (.typeErr "CodeSpan init got an unexpected keyword argument skip_quality_filters")

/-- `extract_spans_ast` (`generate/_spans_ast.py`, lines 124-126), restricted
to the degraded path: when the language has no tree-sitter handle it executes
`return extract_spans_regex(source, lang_config=lc)`.  The call is checked
against `extract_spans_regex`'s declared parameters; the successful-call
branch is unreachable (see the C3 theorem), so the regex extractor's body is
not needed here.  The identical call appears in `generate/_fim.py` line 244. -/
def extract_spans_ast_fallbackCall (source : Str) : Except PyErr (List CodeSpan) :=
  if pyKwargsAccepted extractSpansRegexPyParams ["lang_config"] then
    .ok []
  else
    .error (.typeErr "extract_spans_regex() got an unexpected keyword argument lang_config")

/-- Claim C1: the spec (and the rest of the pipeline, and the tests
`test_quality.py:80` and `test_spans_devbehavior.py:131`) require
`skip_quality_filters` on `CodeSpan` and `FIMExample`, but `fim/types.py`
declares it on neither; consequently constructing a doc-comment span raises
`TypeError` and `filter_low_quality_examples` raises `AttributeError` on any
non-empty input.  This theorem evaluates the code at such a failing input. -/
theorem C1_skip_quality_filters_field_missing :
    pyHasAttr codeSpanPyFields "skip_quality_filters" = false ∧
    pyHasAttr fimExamplePyFields "skip_quality_filters" = false ∧
    generate_doc_comment_spans_construct 10 20 1 2
      = .error (.typeErr "CodeSpan init got an unexpected keyword argument skip_quality_filters") ∧
    filter_low_quality_examples_fieldAccess
        [{ filepath := "a.php", spanKind := "lines", spanName := [],
           pre := ['p'], mid := ['m'], suf := ['s'] }]
      = .error (.attrErr "FIMExample object has no attribute skip_quality_filters") := by
  refine ⟨rfl, rfl, rfl, rfl⟩

/-- Claim C3: with the tree-sitter handle absent, the fallback call
`extract_spans_regex(source, lang_config=lc)` raises `TypeError` for every
source file (the callee declares only `source`), instead of silently
degrading to the regex spans as the spec requires. -/
theorem C3_regex_fallback_raises_TypeError (source : Str) :
    extract_spans_ast_fallbackCall source
      = .error (.typeErr "extract_spans_regex() got an unexpected keyword argument lang_config") := by
  rfl

/-! ## Example assembly (`generate/_fim.py`) -/

/-- `_make_example_from_byte_span` (`generate/_fim.py`, lines 85-126).  The
byte offsets are taken as nonnegative, which the caller's branch guard
`span.start_byte >= 0 and span.end_byte > span.start_byte` ensures. -/
def _make_example_from_byte_span (source : Str) (span : CodeSpan)
    (relPath : String) (xfContext : Str) (maxTotalChars : Nat)
    (lines : List Str) (minWords : Nat := MIN_MIDDLE_WORDS) :
    Option FIMExample :=
  let sb := span.startByte.toNat
  let eb := span.endByte.toNat
  let p := source.take sb
  let m := pySlice source sb eb
  let s := source.drop eb
  if pyStrip m = [] ∨ (pyWords m).length < minWords then none
  else
    let total := p.length + m.length + s.length + xfContext.length
    if total ≤ maxTotalChars then
      some { filepath := relPath, spanKind := span.kind, spanName := span.name,
             pre := p, mid := m, suf := s, xfCtx := xfContext,
             middleLines := m.count '\n' + 1, totalLines := lines.length,
             skipQualityFilters := span.skipQualityFilters }
    else
      let maxCtx := maxTotalChars / 3
      let p' := if p.length > maxCtx then p.drop (p.length - maxCtx) else p
      let s' := if s.length > maxCtx then s.take maxCtx else s
      if p'.length + m.length + s'.length + xfContext.length > maxTotalChars then
        none
      else
        some { filepath := relPath, spanKind := span.kind, spanName := span.name,
               pre := p', mid := m, suf := s', xfCtx := xfContext,
               middleLines := m.count '\n' + 1, totalLines := lines.length,
               skipQualityFilters := span.skipQualityFilters }

/-- `_make_example_from_line_span` (`generate/_fim.py`, lines 129-176).
Line-locator spans have `start_line ≤ end_line` (all producers satisfy it),
so `span_lines = end_line - start_line + 1` is the `Nat` below. -/
def _make_example_from_line_span (span : CodeSpan)
    (relPath : String) (xfContext : Str) (maxTotalChars : Nat)
    (maxMiddleLines minMiddleLines : Nat) (lines : List Str) :
    Option FIMExample :=
  let spanLines := span.endLine + 1 - span.startLine
  if spanLines < minMiddleLines ∨ spanLines > maxMiddleLines then none
  else
    let prefixLines := lines.take span.startLine
    let middleLinesLst := (lines.drop span.startLine).take spanLines
    let suffixLines := lines.drop (span.endLine + 1)
    let p := joinNl prefixLines
    let m := joinNl middleLinesLst
    let s := joinNl suffixLines
    if pyStrip m = [] ∨ (pyWords m).length < MIN_MIDDLE_WORDS then none
    else
      let total := p.length + m.length + s.length + xfContext.length
      if total ≤ maxTotalChars then
        some { filepath := relPath, spanKind := span.kind, spanName := span.name,
               pre := p ++ ['\n'], mid := m,
               suf := if s.isEmpty then [] else '\n' :: s,
               xfCtx := xfContext, middleLines := spanLines,
               totalLines := lines.length }
      else
        let maxContextLines := 80
        let p' := if prefixLines.length > maxContextLines then
            joinNl (prefixLines.drop (prefixLines.length - maxContextLines)) else p
        let s' := if suffixLines.length > maxContextLines then
            joinNl (suffixLines.take maxContextLines) else s
        if p'.length + m.length + s'.length + xfContext.length > maxTotalChars then
          none
        else
          some { filepath := relPath, spanKind := span.kind, spanName := span.name,
                 pre := p' ++ ['\n'], mid := m,
                 suf := if s'.isEmpty then [] else '\n' :: s',
                 xfCtx := xfContext, middleLines := spanLines,
                 totalLines := lines.length }

/-- The span-conversion loop of `generate_fim_examples`
(`generate/_fim.py`, lines 250-286): routes each span to the byte-offset,
char-offset or line-number assembler and appends the cached per-file BM25
context when the budget still allows.  The span list is the concatenation the
generators produced earlier in the function. -/
def spans_to_examples (source : Str) (allSpans : List CodeSpan)
    (relPath : String) (xfContext : Str) (maxTotalChars : Nat)
    (maxMiddleLines minMiddleLines : Nat) (lines : List Str)
    (bm25FileCtx : Str) : List FIMExample :=
  allSpans.filterMap (fun span =>
    let ex? :=
      if 0 ≤ span.startByte ∧ span.startByte < span.endByte then
        let minW := if strStartsWith span.kind "dev_" then 1 else MIN_MIDDLE_WORDS
        _make_example_from_byte_span source span relPath xfContext
          maxTotalChars lines minW
      else if span.kind = "char_random" then
        let fakeByteSpan : CodeSpan :=
          { kind := span.kind, startLine := span.startLine,
            endLine := span.endLine, name := span.name,
            startByte := span.startLine, endByte := span.endLine }
        _make_example_from_byte_span source fakeByteSpan relPath xfContext
          maxTotalChars lines
      else
        _make_example_from_line_span span relPath xfContext maxTotalChars
          maxMiddleLines minMiddleLines lines
    ex?.map (fun ex =>
      if bm25FileCtx ≠ [] then
        let combined := bm25FileCtx ++ ex.xfCtx
        if ex.pre.length + ex.mid.length + ex.suf.length + combined.length
            ≤ maxTotalChars then
          { ex with xfCtx := combined }
        else ex
      else ex))

theorem take_slice_drop (source : Str) (sb eb : Nat) (h : sb ≤ eb) :
    source.take sb ++ (pySlice source sb eb ++ source.drop eb) = source := by
  have h1 : pySlice source sb eb ++ source.drop eb = source.drop sb := by
    have h2 := List.take_append_drop (eb - sb) (source.drop sb)
    rw [pySlice]
    rw [List.drop_drop] at h2
    have : sb + (eb - sb) = eb := by omega
    rwa [this] at h2
  rw [h1, List.take_append_drop]

theorem suffix_infix_of_parts {src p m s : Str} (hsrc : p ++ (m ++ s) = src)
    {pre1 suf1 : Str} (hp : ∃ a, a ++ pre1 = p) (hs : ∃ b, suf1 ++ b = s) :
    (pre1 ++ m ++ suf1) <:+: src := by
  obtain ⟨a, ha⟩ := hp
  obtain ⟨b, hb⟩ := hs
  exact ⟨a, b, by rw [← hsrc, ← ha, ← hb]; simp [List.append_assoc]⟩

/-- Claim C2 (amended): for every example the byte/char-offset assembler
emits, `pre ++ mid ++ suf` is a contiguous substring of the original source,
and it equals the source exactly whenever the untruncated total
`len(source) + len(cross_file_context)` fits in `max_total_chars`.  (The
original claim's unconditional equality fails once the budget truncation of
`generate/_fim.py` lines 104-109 fires; see the counterexample.) -/
theorem C2_byte_span_reconstruction (source : Str) (span : CodeSpan)
    (relPath : String) (xf : Str) (maxT : Nat) (lines : List Str) (minW : Nat)
    (ex : FIMExample)
    (hse : span.startByte.toNat ≤ span.endByte.toNat)
    (h : _make_example_from_byte_span source span relPath xf maxT lines minW
          = some ex) :
    (ex.pre ++ ex.mid ++ ex.suf) <:+: source ∧
    (source.length + xf.length ≤ maxT → ex.pre ++ ex.mid ++ ex.suf = source) := by
  unfold _make_example_from_byte_span at h
  set sb := span.startByte.toNat with hsb
  set eb := span.endByte.toNat with heb
  have hrec := take_slice_drop source sb eb hse
  have hlensum : (source.take sb).length + ((pySlice source sb eb).length
      + (source.drop eb).length) = source.length := by
    have := congrArg List.length hrec
    simpa [List.length_append] using this
  simp only [] at h
  split at h
  · exact absurd h (by simp)
  · split at h
    · -- no truncation
      injection h with h
      subst h
      dsimp only
      rw [List.append_assoc, hrec]
      exact ⟨List.infix_rfl, fun _ => rfl⟩
    · -- truncation branch: split the two trim conditionals and the recheck
      rename_i hwords htot
      split at h <;> split at h <;> split at h <;>
        first
        | exact Option.noConfusion h
        | (injection h with h
           subst h
           dsimp only
           refine ⟨?_, fun hlen => absurd hlen (by omega)⟩
           refine suffix_infix_of_parts hrec ?_ ?_ <;>
             first
             | exact ⟨[], rfl⟩
             | exact ⟨[], List.append_nil _⟩
             | exact ⟨_, List.take_append_drop _ _⟩)

def c2wSpan : CodeSpan :=
  { kind := "char_random", startLine := 0, endLine := 0,
    startByte := 0, endByte := 8 }

def c2wEx : FIMExample :=
  { filepath := "w.php", spanKind := "char_random", spanName := [],
    pre := [], mid := "mm mm mm".toList, suf := [], xfCtx := [],
    middleLines := 1, totalLines := 1, skipQualityFilters := [] }

/-- Witness for `C2_byte_span_reconstruction` at a concrete untruncated
example. -/
theorem C2_byte_span_reconstruction_witness :
    (c2wEx.pre ++ c2wEx.mid ++ c2wEx.suf) <:+: "mm mm mm".toList ∧
    ("mm mm mm".toList.length + ([] : Str).length ≤ 100 →
      c2wEx.pre ++ c2wEx.mid ++ c2wEx.suf = "mm mm mm".toList) :=
  C2_byte_span_reconstruction "mm mm mm".toList c2wSpan "w.php" [] 100
    ["mm mm mm".toList] 3 c2wEx (by decide) (by decide)

def c2cSrc : Str :=
  List.replicate 20 'a' ++ List.replicate 5 'm' ++ List.replicate 20 'b'

def c2cSpan : CodeSpan :=
  { kind := "dev_incomplete_line", startLine := 0, endLine := 0,
    startByte := 20, endByte := 25 }

/-- Claim C2 counterexample: a `dev_incomplete_line` byte span in a 45-char
source with `max_total_chars = 30` is emitted after truncation, and its
`pre ++ mid ++ suf` (25 chars) is not the original source. -/
theorem C2_counterexample :
    spans_to_examples c2cSrc [c2cSpan] "f.php" [] 30 30 1 (splitNl c2cSrc) []
      = [{ filepath := "f.php", spanKind := "dev_incomplete_line",
           spanName := [], pre := List.replicate 10 'a',
           mid := List.replicate 5 'm', suf := List.replicate 10 'b',
           xfCtx := [], middleLines := 1, totalLines := 1,
           skipQualityFilters := [] }] ∧
    List.replicate 10 'a' ++ List.replicate 5 'm' ++ List.replicate 10 'b'
      ≠ c2cSrc := by
  refine ⟨by decide, by decide⟩

/-! ## Rebalancer (`generate/_fim.py`, lines 19-75)

Python computes the two floor expressions `int(total * ratio)` and
`int(shortfall * ratio / over_ratio_sum)` in floating point; the model uses
exact rational arithmetic for them. -/

/-- The category keys, in the dict-insertion order of `buckets`. -/
def rebalCats : List String := ["ast", "dev", "char"]

/-- `TARGET_RATIOS` (`generate/_fim.py`, line 19). -/
def targetRatioOf (cat : String) : ℚ :=
  if cat = "ast" then 66/100 else if cat = "dev" then 22/100 else 12/100

/-- `_categorize` (`generate/_fim.py`, lines 22-27). -/
def _categorize (kind : String) : String :=
  if strStartsWith kind "ast_" then "ast"
  else if strStartsWith kind "dev_" then "dev"
  else "char"

/-- The element a single `random.sample` draw picks: the oracle value reduced
modulo the population size, as an index. -/
def pyPick {α : Type} (xs : List α) (v : Nat) (d : α) : α :=
  xs.getD (v % xs.length) d

theorem pyPick_mem {α : Type} (x : α) (xs : List α) (v : Nat) :
    pyPick (x :: xs) v x ∈ x :: xs := by
  unfold pyPick
  rcases Nat.lt_or_ge (v % (x :: xs).length) (x :: xs).length with hlt | hge
  · rw [List.getD_eq_getElem _ _ hlt]
    exact List.getElem_mem _
  · rw [List.getD_eq_default _ _ hge]
    exact List.mem_cons_self x xs

/-- `random.sample(xs, k)` (uniform, without replacement; call sites
guarantee `k ≤ len(xs)`): each draw consumes one oracle value and removes
the drawn element. -/
def pySample {α : Type} [DecidableEq α] : List α → Nat → Rng → List α × Rng
  | _, 0, g => ([], g)
  | [], _ + 1, g => ([], g)
  | x :: xs, k + 1, g =>
    let (ys, g'') :=
      pySample ((x :: xs).erase (pyPick (x :: xs) (g.next).1 x)) k (g.next).2
    (pyPick (x :: xs) (g.next).1 x :: ys, g'')

theorem pySample_subperm {α : Type} [DecidableEq α] (xs : List α) (k : Nat)
    (g : Rng) : List.Subperm (pySample xs k g).1 xs := by
  induction k generalizing xs g with
  | zero => cases xs <;> simp [pySample]
  | succ k ih =>
    cases xs with
    | nil => simp [pySample]
    | cons x xs =>
      rw [pySample]
      have hperm := List.perm_cons_erase (pyPick_mem x xs (g.next).1)
      have hsub := ih ((x :: xs).erase (pyPick (x :: xs) (g.next).1 x)) (g.next).2
      exact ((List.subperm_cons _).mpr hsub).trans hperm.symm.subperm

theorem pySample_length {α : Type} [DecidableEq α] (xs : List α) (k : Nat)
    (g : Rng) (hk : k ≤ xs.length) : (pySample xs k g).1.length = k := by
  induction k generalizing xs g with
  | zero => cases xs <;> simp [pySample]
  | succ k ih =>
    cases xs with
    | nil => simp at hk
    | cons x xs =>
      rw [pySample]
      have hlen := List.length_erase_of_mem (pyPick_mem x xs (g.next).1)
      have hk' : k ≤ ((x :: xs).erase (pyPick (x :: xs) (g.next).1 x)).length := by
        rw [hlen]
        simp only [List.length_cons] at hk ⊢
        omega
      simp [ih _ (g.next).2 hk']

def rebalBucket (examples : List FIMExample) (cat : String) : List FIMExample :=
  examples.filter (fun ex => _categorize ex.spanKind = cat)

/-- `raw_targets[cat] = int(total * ratio)` (`_fim.py`, line 47). -/
def rebalRawTarget (examples : List FIMExample) (cat : String) : Nat :=
  (((examples.length : ℚ) * targetRatioOf cat).floor).toNat

/-- `cat in under` ⟺ the bucket is strictly below its raw target
(`_fim.py`, line 51). -/
def rebalUnder (examples : List FIMExample) (cat : String) : Bool :=
  (rebalBucket examples cat).length < rebalRawTarget examples cat

/-- `shortfall` (`_fim.py`, line 52). -/
def rebalShortfall (examples : List FIMExample) : Nat :=
  (rebalCats.map (fun cat =>
    if rebalUnder examples cat then
      rebalRawTarget examples cat - (rebalBucket examples cat).length
    else 0)).sum

/-- `over_ratio_sum` (`_fim.py`, lines 55-56). -/
def rebalOverRatioSum (examples : List FIMExample) : ℚ :=
  (rebalCats.map (fun cat =>
    if rebalUnder examples cat then 0 else targetRatioOf cat)).sum

/-- `targets[cat]` (`_fim.py`, lines 59-65). -/
def rebalTarget (examples : List FIMExample) (cat : String) : Nat :=
  if rebalUnder examples cat then (rebalBucket examples cat).length
  else
    rebalRawTarget examples cat +
      (if 0 < rebalOverRatioSum examples then
        (((rebalShortfall examples : ℚ) * targetRatioOf cat
            / rebalOverRatioSum examples).floor).toNat
      else 0)

/-- The body of the downsampling loop (`_fim.py`, lines 68-73) for one
category: keep the whole bucket when it is within target, else sample
`targets[cat]` of it. -/
def rebalPiece (examples : List FIMExample) (cat : String) (g : Rng) :
    List FIMExample × Rng :=
  if (rebalBucket examples cat).length ≤ rebalTarget examples cat then
    (rebalBucket examples cat, g)
  else pySample (rebalBucket examples cat) (rebalTarget examples cat) g

/-- `rebalance_examples` (`generate/_fim.py`, lines 30-75). -/
def rebalance_examples (examples : List FIMExample) (g : Rng) :
    List FIMExample :=
  if examples.isEmpty then examples
  else
    (rebalCats.foldl (fun (st : List FIMExample × Rng) cat =>
      (st.1 ++ (rebalPiece examples cat st.2).1,
       (rebalPiece examples cat st.2).2)) ([], g)).1

theorem rebalance_examples_eq (examples : List FIMExample) (g : Rng)
    (hne : examples ≠ []) :
    rebalance_examples examples g =
      (rebalPiece examples "ast" g).1 ++
      ((rebalPiece examples "dev" (rebalPiece examples "ast" g).2).1 ++
       (rebalPiece examples "char"
          (rebalPiece examples "dev" (rebalPiece examples "ast" g).2).2).1) := by
  have h : examples.isEmpty = false := by
    cases examples with
    | nil => exact absurd rfl hne
    | cons a l => rfl
  simp [rebalance_examples, rebalCats, h, List.foldl]

theorem rebalPiece_subperm (examples : List FIMExample) (cat : String)
    (g : Rng) :
    List.Subperm (rebalPiece examples cat g).1 (rebalBucket examples cat) := by
  unfold rebalPiece
  split
  · exact List.Subperm.refl _
  · exact pySample_subperm _ _ _

theorem rebalPiece_length (examples : List FIMExample) (cat : String)
    (g : Rng) :
    (rebalPiece examples cat g).1.length
      = min (rebalBucket examples cat).length (rebalTarget examples cat) := by
  unfold rebalPiece
  split
  · rename_i hle
    exact (Nat.min_eq_left hle).symm
  · rename_i hgt
    rw [pySample_length _ _ _ (by omega)]
    exact (Nat.min_eq_right (by omega)).symm

theorem categorize_cases (kind : String) :
    _categorize kind = "ast" ∨ _categorize kind = "dev" ∨
    _categorize kind = "char" := by
  unfold _categorize
  split
  · exact Or.inl rfl
  · split
    · exact Or.inr (Or.inl rfl)
    · exact Or.inr (Or.inr rfl)

theorem mem_rebalBucket_categorize {examples : List FIMExample} {cat : String}
    {ex : FIMExample} (h : ex ∈ rebalBucket examples cat) :
    _categorize ex.spanKind = cat := by
  have := (List.mem_filter.mp h).2
  exact of_decide_eq_true this

theorem filter_of_subperm_bucket_self {examples : List FIMExample}
    {cat : String} {l : List FIMExample}
    (h : List.Subperm l (rebalBucket examples cat)) :
    l.filter (fun ex => _categorize ex.spanKind = cat) = l := by
  apply List.filter_eq_self.mpr
  intro ex hex
  exact decide_eq_true (mem_rebalBucket_categorize (h.subset hex))

theorem filter_of_subperm_bucket_ne {examples : List FIMExample}
    {cat c : String} {l : List FIMExample}
    (h : List.Subperm l (rebalBucket examples cat)) (hne : cat ≠ c) :
    l.filter (fun ex => _categorize ex.spanKind = c) = [] := by
  apply List.filter_eq_nil.mpr
  intro ex hex
  have := mem_rebalBucket_categorize (h.subset hex)
  simp only [decide_eq_true_eq]
  rw [this]
  exact hne

theorem count_rebalBucket_eq_zero {examples : List FIMExample}
    {x : FIMExample} {c : String} (hx : _categorize x.spanKind ≠ c) :
    List.count x (rebalBucket examples c) = 0 := by
  apply List.count_eq_zero.mpr
  intro hmem
  exact hx (mem_rebalBucket_categorize hmem)

/-- Claim C8: on a non-empty input, `rebalance_examples` returns a
sub-multiset of its input, and for every category the returned count is
`min(bucket size, target)`, where the target keeps under-represented
categories in full and gives over-target categories their raw target
`⌊N·r_c⌋` plus the proportional share `⌊shortfall·r_c / Σ over-ratios⌋` of
the pooled shortfall (`rebalTarget`); in particular no category is ever
upsampled.  The two Python `int(...)` floors are modelled in exact rational
arithmetic. -/
theorem C8_rebalance_examples (examples : List FIMExample) (g : Rng)
    (hne : examples ≠ []) :
    List.Subperm (rebalance_examples examples g) examples ∧
    ∀ cat ∈ rebalCats,
      ((rebalance_examples examples g).filter
          (fun ex => _categorize ex.spanKind = cat)).length
        = min (rebalBucket examples cat).length (rebalTarget examples cat) ∧
      (rebalUnder examples cat = true →
        ((rebalance_examples examples g).filter
            (fun ex => _categorize ex.spanKind = cat)).length
          = (rebalBucket examples cat).length) := by
  rw [rebalance_examples_eq examples g hne]
  set g1 := (rebalPiece examples "ast" g).2 with hg1
  set g2 := (rebalPiece examples "dev" g1).2 with hg2
  have hs1 := rebalPiece_subperm examples "ast" g
  have hs2 := rebalPiece_subperm examples "dev" g1
  have hs3 := rebalPiece_subperm examples "char" g2
  constructor
  · apply List.subperm_ext_iff.mpr
    intro x _
    rw [List.count_append, List.count_append]
    have h1 := hs1.count_le x
    have h2 := hs2.count_le x
    have h3 := hs3.count_le x
    have hle : ∀ c : String,
        List.count x (rebalBucket examples c) ≤ List.count x examples :=
      fun c => (List.filter_sublist _).count_le x
    rcases categorize_cases x.spanKind with hc | hc | hc
    · have hz2 : List.count x (rebalBucket examples "dev") = 0 :=
        count_rebalBucket_eq_zero (by simp [hc])
      have hz3 : List.count x (rebalBucket examples "char") = 0 :=
        count_rebalBucket_eq_zero (by simp [hc])
      have := hle "ast"
      omega
    · have hz1 : List.count x (rebalBucket examples "ast") = 0 :=
        count_rebalBucket_eq_zero (by simp [hc])
      have hz3 : List.count x (rebalBucket examples "char") = 0 :=
        count_rebalBucket_eq_zero (by simp [hc])
      have := hle "dev"
      omega
    · have hz1 : List.count x (rebalBucket examples "ast") = 0 :=
        count_rebalBucket_eq_zero (by simp [hc])
      have hz2 : List.count x (rebalBucket examples "dev") = 0 :=
        count_rebalBucket_eq_zero (by simp [hc])
      have := hle "char"
      omega
  · intro cat hcat
    have hmin : ((rebalPiece examples "ast" g).1 ++
        ((rebalPiece examples "dev" g1).1 ++
         (rebalPiece examples "char" g2).1)).filter
          (fun ex => _categorize ex.spanKind = cat)
        = (rebalPiece examples cat
            (if cat = "ast" then g else if cat = "dev" then g1 else g2)).1 := by
      rcases (by simpa [rebalCats] using hcat : cat = "ast" ∨ cat = "dev" ∨ cat = "char") with hc | hc | hc
      · subst hc
        simp [List.filter_append,
          filter_of_subperm_bucket_self hs1,
          filter_of_subperm_bucket_ne hs2 (show "dev" ≠ "ast" by decide),
          filter_of_subperm_bucket_ne hs3 (show "char" ≠ "ast" by decide)]
      · subst hc
        simp [List.filter_append,
          filter_of_subperm_bucket_self hs2,
          filter_of_subperm_bucket_ne hs1 (show "ast" ≠ "dev" by decide),
          filter_of_subperm_bucket_ne hs3 (show "char" ≠ "dev" by decide)]
      · subst hc
        simp [List.filter_append,
          filter_of_subperm_bucket_self hs3,
          filter_of_subperm_bucket_ne hs1 (show "ast" ≠ "char" by decide),
          filter_of_subperm_bucket_ne hs2 (show "dev" ≠ "char" by decide)]
    rw [hmin, rebalPiece_length]
    refine ⟨rfl, fun hunder => ?_⟩
    have : rebalTarget examples cat = (rebalBucket examples cat).length := by
      unfold rebalTarget
      rw [hunder]
      simp
    rw [this, Nat.min_self]

def c8ex (k : String) : FIMExample :=
  { filepath := "a.php", spanKind := k, spanName := [],
    pre := ['a'], mid := ['b'], suf := ['c'] }

def c8wExs : List FIMExample :=
  [c8ex "ast_single_node", c8ex "dev_incomplete_line", c8ex "char_random"]

/-- Witness for `C8_rebalance_examples` on a concrete three-example input. -/
theorem C8_rebalance_examples_witness :
    List.Subperm (rebalance_examples c8wExs ⟨[]⟩) c8wExs ∧
    ∀ cat ∈ rebalCats,
      ((rebalance_examples c8wExs ⟨[]⟩).filter
          (fun ex => _categorize ex.spanKind = cat)).length
        = min (rebalBucket c8wExs cat).length (rebalTarget c8wExs cat) ∧
      (rebalUnder c8wExs cat = true →
        ((rebalance_examples c8wExs ⟨[]⟩).filter
            (fun ex => _categorize ex.spanKind = cat)).length
          = (rebalBucket c8wExs cat).length) :=
  C8_rebalance_examples c8wExs ⟨[]⟩ (by decide)

/-! ## BM25 index build (`fim/bm25.py`, lines 8-66)

The `rank_bm25` library is modelled as importable (`HAS_BM25 = True`; with it
absent the function returns `None` unconditionally).  The `BM25Okapi` scorer
object is external; the index keeps the tokenized corpus handed to it. -/

def isWordChar (c : Char) : Bool :=
  ('a' ≤ c && c ≤ 'z') || ('A' ≤ c && c ≤ 'Z') || ('0' ≤ c && c ≤ '9') || c = '_'

/-- Maximal runs of characters satisfying `keep` (the non-empty pieces of
`re.split` on the complementary character class). -/
def splitRunsAux (keep : Char → Bool) : Str → Str → List Str
  | [], cur => if cur.isEmpty then [] else [cur.reverse]
  | c :: t, cur =>
    if keep c then splitRunsAux keep t (c :: cur)
    else if cur.isEmpty then splitRunsAux keep t []
    else cur.reverse :: splitRunsAux keep t []

/-- `_tokenize_code` (`fim/bm25.py`, lines 8-10): split on `[^a-zA-Z0-9_]+`,
lowercase, drop tokens of length ≤ 1. -/
def _tokenize_code (text : Str) : List Str :=
  ((splitRunsAux isWordChar text []).filter (fun t => 1 < t.length)).map
    (fun t => t.map Char.toLower)

/-- Appending `current_chunk` to the chunk list when its stripped text is
longer than 20 chars (the three flush sites of `build_bm25_index`). -/
def bm25ChunkFlush (acc : List Str) (current : List Str) : List Str :=
  if 20 < (pyStrip (joinNl current)).length then acc ++ [joinNl current] else acc

/-- The per-file chunking loop of `build_bm25_index`
(`fim/bm25.py`, lines 34-60): split on blank lines, cap at 20 lines. -/
def bm25ChunksAux : List Str → List Str → List Str → List Str
  | [], current, acc => if current.isEmpty then acc else bm25ChunkFlush acc current
  | line :: rest, current, acc =>
    if (pyStrip line).isEmpty && !current.isEmpty then
      bm25ChunksAux rest [] (bm25ChunkFlush acc current)
    else
      if 20 ≤ (current ++ [line]).length then
        bm25ChunksAux rest [] (bm25ChunkFlush acc (current ++ [line]))
      else bm25ChunksAux rest (current ++ [line]) acc

def bm25FileChunks (source : Str) : List Str := bm25ChunksAux (splitNl source) [] []

/-- A corpus file: path components plus content; `none` models a file whose
`read_text` raises (the `except: continue` path). -/
structure PyFile where
  path : List String
  content : Option Str
deriving Repr, DecidableEq

def pathStr (p : List String) : String := String.intercalate "/" p

/-- `root in filepath.parents`: the root is a proper ancestor. -/
def rootInParents (root p : List String) : Bool :=
  root.isPrefixOf p && decide (root.length < p.length)

/-- `rel_path` (`fim/bm25.py`, line 31). -/
def bm25RelPath (root : List String) (p : List String) : String :=
  if rootInParents root p then pathStr (p.drop root.length) else pathStr p

structure BM25Index where
  chunks : List Str
  chunkFiles : List String
  tokenized : List (List Str)
deriving Repr, DecidableEq

/-- `build_bm25_index` (`fim/bm25.py`, lines 13-66).  The Python loop appends
each qualifying chunk, its file's `rel_path` and its token list at the same
three flush sites; per file this yields exactly `bm25FileChunks source` with
that file's `rel_path`, which is how the fold below accumulates them. -/
def build_bm25_index (allFiles : List PyFile) (root : List String) :
    Option BM25Index :=
  let st := allFiles.foldl
    (fun (st : List Str × List String × List (List Str)) f =>
      match f.content with
      | none => st
      | some source =>
        let cs := bm25FileChunks source
        (st.1 ++ cs,
         st.2.1 ++ cs.map (fun _ => bm25RelPath root f.path),
         st.2.2 ++ cs.map _tokenize_code)) ([], [], [])
  if st.2.2.isEmpty then none
  else some { chunks := st.1, chunkFiles := st.2.1, tokenized := st.2.2 }

/-- The per-file chunk/path pairs, flattened in file order. -/
def bm25ChunksWithFiles (allFiles : List PyFile) (root : List String) :
    List (Str × String) :=
  (allFiles.map (fun f =>
    match f.content with
    | none => []
    | some src =>
      (bm25FileChunks src).map (fun c => (c, bm25RelPath root f.path)))).join

theorem bm25_fold_eq (allFiles : List PyFile) (root : List String)
    (a : List Str) (b : List String) (c : List (List Str)) :
    allFiles.foldl
      (fun (st : List Str × List String × List (List Str)) f =>
        match f.content with
        | none => st
        | some source =>
          let cs := bm25FileChunks source
          (st.1 ++ cs,
           st.2.1 ++ cs.map (fun _ => bm25RelPath root f.path),
           st.2.2 ++ cs.map _tokenize_code)) (a, b, c)
      = (a ++ (bm25ChunksWithFiles allFiles root).map Prod.fst,
         b ++ (bm25ChunksWithFiles allFiles root).map Prod.snd,
         c ++ ((bm25ChunksWithFiles allFiles root).map Prod.fst).map
                _tokenize_code) := by
  induction allFiles generalizing a b c with
  | nil => simp [bm25ChunksWithFiles]
  | cons f fs ih =>
    cases hf : f.content with
    | none =>
      simp only [List.foldl_cons, hf, ih, bm25ChunksWithFiles, List.map_cons,
        List.join_cons]
      simp
    | some src =>
      simp only [List.foldl_cons, hf, ih, bm25ChunksWithFiles, List.map_cons,
        List.join_cons]
      simp [List.map_map, List.append_assoc, Function.comp_def,
        List.map_const']

/-- Claim C10: `build_bm25_index` returns `None` exactly when no readable
file yields a chunk whose stripped length exceeds 20; otherwise the index's
`chunks` and `chunk_files` are the flattened per-file chunk lists paired with
that file's (root-relative, when the root is a proper ancestor) path — in
particular the two lists have equal length and `chunk_files[i]` names the
file `chunks[i]` was cut from. -/
theorem C10_build_bm25_index (allFiles : List PyFile) (root : List String) :
    build_bm25_index allFiles root
      = if (bm25ChunksWithFiles allFiles root).isEmpty then none
        else some
          { chunks := (bm25ChunksWithFiles allFiles root).map Prod.fst,
            chunkFiles := (bm25ChunksWithFiles allFiles root).map Prod.snd,
            tokenized := ((bm25ChunksWithFiles allFiles root).map
                Prod.fst).map _tokenize_code } := by
  unfold build_bm25_index
  rw [bm25_fold_eq]
  simp only [List.nil_append]
  by_cases h : (bm25ChunksWithFiles allFiles root).isEmpty
  · have h' : bm25ChunksWithFiles allFiles root = [] := by
      simpa [List.isEmpty_iff] using h
    simp [h']
  · have h' : bm25ChunksWithFiles allFiles root ≠ [] := by
      simpa [List.isEmpty_iff] using h
    have hne : ¬ (((bm25ChunksWithFiles allFiles root).map Prod.fst).map
        _tokenize_code).isEmpty := by
      simp [List.isEmpty_iff, h']
    simp [h, hne, h']

/-! ## FIM token formats (`fim/types.py`, lines 4-48 and 79-95) -/

structure FIMConfig where
  preTok : Str
  sufTok : Str
  midTok : Str
  eotTok : Str := "<|endoftext|>".toList
deriving Repr, DecidableEq

/-- `FIMConfig.format_psm` (`fim/types.py`, lines 13-20). -/
def FIMConfig.format_psm (cfg : FIMConfig) (p m s : Str) : Str :=
  cfg.preTok ++ p ++ cfg.sufTok ++ s ++ cfg.midTok ++ m ++ cfg.eotTok

/-- `FIM_CONFIGS` (`fim/types.py`, lines 23-48). -/
def FIM_CONFIGS : List (String × FIMConfig) :=
  [("qwen2.5-coder",
    { preTok := "<|fim_prefix|>".toList, sufTok := "<|fim_suffix|>".toList,
      midTok := "<|fim_middle|>".toList, eotTok := "<|endoftext|>".toList }),
   ("granite-code",
    { preTok := "<fim_prefix>".toList, sufTok := "<fim_suffix>".toList,
      midTok := "<fim_middle>".toList, eotTok := "<|endoftext|>".toList }),
   ("codellama",
    { preTok := "<PRE>".toList, sufTok := "<SUF>".toList,
      midTok := "<MID>".toList, eotTok := "</s>".toList }),
   ("starcoder",
    { preTok := "<fim_prefix>".toList, sufTok := "<fim_suffix>".toList,
      midTok := "<fim_middle>".toList, eotTok := "<|endoftext|>".toList })]

/-- The `text` field of `FIMExample.to_training_format`
(`fim/types.py`, lines 79-95): `format_psm(cross_file_context + prefix,
middle, suffix)`. -/
def to_training_format_text (ex : FIMExample) (cfg : FIMConfig) : Str :=
  cfg.format_psm (ex.xfCtx ++ ex.pre) ex.mid ex.suf

/-- `pat` has no proper non-empty border (no proper prefix that is also a
suffix); the four FIM token literals all satisfy this. -/
def noBorderB (pat : Str) : Bool :=
  (List.range pat.length).all (fun k =>
    decide (k = 0) || decide (pat.take k ≠ pat.drop (pat.length - k)))

theorem containsSub_cons_of {a pat : Str} (c : Char)
    (h : containsSub a pat = true) : containsSub (c :: a) pat = true := by
  unfold containsSub at h ⊢
  rw [findSub]
  split
  · simp
  · simpa using h

theorem findSub_append_of_noBorder (pat : Str) (hne : pat ≠ [])
    (hnb : noBorderB pat = true) :
    ∀ (a r : Str), ¬ containsSub a pat = true →
      findSub (a ++ (pat ++ r)) pat = some a.length := by
  intro a
  induction a with
  | nil =>
    intro r _
    rw [findSub.eq_def]
    have hp : pat.isPrefixOf (pat ++ r) = true := by
      rw [List.isPrefixOf_iff_prefix]
      exact List.prefix_append _ _
    simp [hp]
  | cons c a' ih =>
    intro r hnin
    have hnin' : ¬ containsSub a' pat = true :=
      fun h => hnin (containsSub_cons_of c h)
    have hnpre : ¬ pat.isPrefixOf ((c :: a') ++ (pat ++ r)) = true := by
      rw [List.isPrefixOf_iff_prefix]
      intro hp
      have htake : pat = ((c :: a') ++ (pat ++ r)).take pat.length := by
        obtain ⟨u, hu⟩ := hp
        rw [← hu, List.take_left]
      rcases le_or_lt pat.length (c :: a').length with hle | hlt
      · -- the pattern would lie inside `c :: a'`
        have hpre : pat <+: (c :: a') := by
          rw [List.take_append_eq_append_take] at htake
          rw [Nat.sub_eq_zero_of_le hle] at htake
          simp only [List.take_zero, List.append_nil] at htake
          rw [htake]
          exact List.take_prefix _ _
        apply hnin
        unfold containsSub
        rw [findSub]
        have : pat.isPrefixOf (c :: a') = true := by
          rw [List.isPrefixOf_iff_prefix]; exact hpre
        simp [this]
      · -- the pattern would straddle the boundary: it needs a border
        have hca : (c :: a') <+: pat :=
          List.prefix_of_prefix_length_le (List.prefix_append _ _) hp
            (le_of_lt hlt)
        obtain ⟨y, hy⟩ := hca
        have hdrop : pat.drop (c :: a').length = y := by
          rw [← hy, List.drop_left]
        obtain ⟨u, hu⟩ := hp
        have htake : pat = ((c :: a') ++ (pat ++ r)).take pat.length := by
          rw [← hu, List.take_left]
        have hyt : y = pat.take (pat.length - (c :: a').length) := by
          have h1 : ((c :: a') ++ (pat ++ r)).take pat.length
              = (c :: a') ++ (pat ++ r).take (pat.length - (c :: a').length) := by
            rw [List.take_append_eq_append_take,
              List.take_of_length_le (le_of_lt hlt)]
          have h2 : (pat ++ r).take (pat.length - (c :: a').length)
              = pat.take (pat.length - (c :: a').length) := by
            rw [List.take_append_eq_append_take,
              Nat.sub_eq_zero_of_le
                (show pat.length - (c :: a').length ≤ pat.length by omega),
              List.take_zero, List.append_nil]
          rw [h1, h2] at htake
          nth_rewrite 1 [← hy] at htake
          exact List.append_cancel_left htake
        have hlc : (c :: a').length = a'.length + 1 := rfl
        have hk1 : 0 < pat.length - (c :: a').length := by omega
        have hk2 : pat.length - (c :: a').length < pat.length := by omega
        have hall := List.all_eq_true.mp hnb
          (pat.length - (c :: a').length) (List.mem_range.mpr hk2)
        rcases Bool.or_eq_true_iff.mp hall with h0 | hneq
        · exact absurd (of_decide_eq_true h0) (by omega)
        · apply of_decide_eq_true hneq
          have harg : pat.length - (pat.length - (c :: a').length)
              = (c :: a').length := by omega
          rw [harg, hdrop, hyt]
    rw [findSub.eq_def]
    simp only [List.cons_append] at hnpre ⊢
    rw [if_neg (by simpa using hnpre)]
    rw [ih r hnin']
    simp

/-- One "split at the first occurrence of `pat`" step: the part before the
first occurrence and the part after it. -/
def splitFirst (t pat : Str) : Option (Str × Str) :=
  match findSub t pat with
  | none => none
  | some i => some (t.take i, t.drop (i + pat.length))

theorem splitFirst_append (pat : Str) (hne : pat ≠ [])
    (hnb : noBorderB pat = true) (a r : Str)
    (hnin : ¬ containsSub a pat = true) :
    splitFirst (a ++ (pat ++ r)) pat = some (a, r) := by
  unfold splitFirst
  rw [findSub_append_of_noBorder pat hne hnb a r hnin]
  have h1 : (a ++ (pat ++ r)).take a.length = a := List.take_left _ _
  have h2 : (a ++ (pat ++ r)).drop (a.length + pat.length) = r := by
    rw [show a ++ (pat ++ r) = (a ++ pat) ++ r by simp [List.append_assoc]]
    exact List.drop_left' (by simp)
  simp [h1, h2]

/-- Modelled from the spec: "parsing the emitted string by splitting on the
four literals" (spec §8).  Strip the leading prefix token, split at the
first suffix token, then the first middle token, then the first eot token;
return `(prefix-part, middle-part, suffix-part)` in the claim's order. -/
def parse_psm (cfg : FIMConfig) (t : Str) : Option (Str × Str × Str) :=
  if cfg.preTok.isPrefixOf t then
    match splitFirst (t.drop cfg.preTok.length) cfg.sufTok with
    | none => none
    | some (a, t2) =>
      match splitFirst t2 cfg.midTok with
      | none => none
      | some (b, t3) =>
        match splitFirst t3 cfg.eotTok with
        | none => none
        | some (c, _) => some (a, c, b)
  else none


theorem parse_format_psm (cfg : FIMConfig) (p m s : Str)
    (hSne : cfg.sufTok ≠ []) (hSnb : noBorderB cfg.sufTok = true)
    (hMne : cfg.midTok ≠ []) (hMnb : noBorderB cfg.midTok = true)
    (hEne : cfg.eotTok ≠ []) (hEnb : noBorderB cfg.eotTok = true)
    (hpS : ¬ containsSub p cfg.sufTok = true)
    (hsM : ¬ containsSub s cfg.midTok = true)
    (hmE : ¬ containsSub m cfg.eotTok = true) :
    parse_psm cfg (cfg.format_psm p m s) = some (p, m, s) := by
  have hform : cfg.format_psm p m s
      = cfg.preTok ++
          (p ++ (cfg.sufTok ++ (s ++ (cfg.midTok ++ (m ++ cfg.eotTok))))) := by
    unfold FIMConfig.format_psm
    simp [List.append_assoc]
  have hcond : cfg.preTok.isPrefixOf (cfg.preTok ++
      (p ++ (cfg.sufTok ++ (s ++ (cfg.midTok ++ (m ++ cfg.eotTok)))))) = true := by
    rw [List.isPrefixOf_iff_prefix]
    exact List.prefix_append _ _
  have hE' : m ++ cfg.eotTok = m ++ (cfg.eotTok ++ []) := by simp
  unfold parse_psm
  rw [hform, if_pos hcond, List.drop_left,
    splitFirst_append cfg.sufTok hSne hSnb p _ hpS]
  dsimp only
  rw [splitFirst_append cfg.midTok hMne hMnb s _ hsM]
  dsimp only
  rw [hE', splitFirst_append cfg.eotTok hEne hEnb m [] hmE]

/-- Claim C9 (amended): for every family in `FIM_CONFIGS`, splitting the
`text` field of `to_training_format` on the family's four token literals
recovers exactly `(cross_file_context + prefix, middle, suffix)` PROVIDED the
combined prefix does not contain the suffix token, the suffix does not
contain the middle token, and the middle does not contain the eot token.
(Unconditionally the claim fails: a component containing a token literal
derails the split — see the counterexample.) -/
theorem C9_format_psm_roundtrip (name : String) (cfg : FIMConfig)
    (hmem : (name, cfg) ∈ FIM_CONFIGS) (ex : FIMExample)
    (h1 : ¬ containsSub (ex.xfCtx ++ ex.pre) cfg.sufTok = true)
    (h2 : ¬ containsSub ex.suf cfg.midTok = true)
    (h3 : ¬ containsSub ex.mid cfg.eotTok = true) :
    parse_psm cfg (to_training_format_text ex cfg)
      = some (ex.xfCtx ++ ex.pre, ex.mid, ex.suf) := by
  unfold to_training_format_text
  simp only [FIM_CONFIGS, List.mem_cons, List.not_mem_nil, or_false,
    Prod.mk.injEq] at hmem
  rcases hmem with ⟨-, rfl⟩ | ⟨-, rfl⟩ | ⟨-, rfl⟩ | ⟨-, rfl⟩ <;>
    exact parse_format_psm _ _ _ _ (by decide) (by decide) (by decide)
      (by decide) (by decide) (by decide) h1 h2 h3

def c9wEx : FIMExample :=
  { filepath := "w.php", spanKind := "ast_single_node", spanName := [],
    pre := "P".toList, mid := "M".toList, suf := "S".toList,
    xfCtx := "X".toList }

/-- Witness for `C9_format_psm_roundtrip` with the qwen2.5-coder tokens. -/
theorem C9_format_psm_roundtrip_witness :
    parse_psm
      { preTok := "<|fim_prefix|>".toList, sufTok := "<|fim_suffix|>".toList,
        midTok := "<|fim_middle|>".toList, eotTok := "<|endoftext|>".toList }
      (to_training_format_text c9wEx
        { preTok := "<|fim_prefix|>".toList, sufTok := "<|fim_suffix|>".toList,
          midTok := "<|fim_middle|>".toList, eotTok := "<|endoftext|>".toList })
      = some (c9wEx.xfCtx ++ c9wEx.pre, c9wEx.mid, c9wEx.suf) :=
  C9_format_psm_roundtrip "qwen2.5-coder" _ (by decide) c9wEx
    (by decide) (by decide) (by decide)

def c9cCfg : FIMConfig :=
  { preTok := "<PRE>".toList, sufTok := "<SUF>".toList,
    midTok := "<MID>".toList, eotTok := "</s>".toList }

def c9cEx : FIMExample :=
  { filepath := "c.php", spanKind := "ast_single_node", spanName := [],
    pre := "<SUF>".toList, mid := "M".toList, suf := "S".toList, xfCtx := [] }

/-- Claim C9 counterexample: with the codellama family, an example whose
prefix is the literal `<SUF>` parses back to the wrong triple, so the token
formatter is not unconditionally right-invertible. -/
theorem C9_counterexample :
    ("codellama", c9cCfg) ∈ FIM_CONFIGS ∧
    parse_psm c9cCfg (to_training_format_text c9cEx c9cCfg)
      ≠ some (c9cEx.xfCtx ++ c9cEx.pre, c9cEx.mid, c9cEx.suf) := by
  refine ⟨by decide, by decide⟩

/-! ## Cross-file context (`fim/crossfile.py`)

The module's regular expressions are embedded as committed scanners; for
each pattern the committed choice coincides with Python's backtracking
search because the alternatives are mutually non-prefix and the repeated
character classes are disjoint from their continuations. -/

/-- Non-overlapping left-to-right `re.finditer` driver.  `matchAt` receives
the character before the current position (for `\b`) and the remaining text,
and returns the captured group plus the whole match length.  The `Nat` is
fuel, primed with the text length; every step consumes at least one
character, so the fuel never runs out. -/
def reScanAux (matchAt : Option Char → Str → Option (Str × Nat)) :
    Nat → Option Char → Str → List Str
  | 0, _, _ => []
  | _, _, [] => []
  | fuel + 1, prev, c :: t =>
    match matchAt prev (c :: t) with
    | some (g, len) =>
      g :: reScanAux matchAt fuel
        (some (((c :: t).take (max len 1)).getLastD c))
        ((c :: t).drop (max len 1))
    | none => reScanAux matchAt fuel (some c) t

def reScan (matchAt : Option Char → Str → Option (Str × Nat)) (s : Str) :
    List Str := reScanAux matchAt s.length none s

/-- First match of `matchAt` anywhere in the text (`re.search`). -/
def reSearch (matchAt : Str → Option Str) : Str → Option Str
  | [] => none
  | c :: t =>
    match matchAt (c :: t) with
    | some g => some g
    | none => reSearch matchAt t

/-- `(?:->|::)(\w+)\s*\(` (crossfile.py line 87). -/
def matchCallSym (_ : Option Char) (s : Str) : Option (Str × Nat) :=
  if "->".toList.isPrefixOf s || "::".toList.isPrefixOf s then
    let r1 := s.drop 2
    let w := r1.takeWhile isWordChar
    if w.isEmpty then none
    else
      let r2 := r1.drop w.length
      let ws := r2.takeWhile isPyWs
      if (r2.drop ws.length).head? = some '(' then
        some (w, 2 + w.length + ws.length + 1)
      else none
  else none

/-- `::(\w+)` (crossfile.py line 90). -/
def matchStaticSym (_ : Option Char) (s : Str) : Option (Str × Nat) :=
  if "::".toList.isPrefixOf s then
    let w := (s.drop 2).takeWhile isWordChar
    if w.isEmpty then none else some (w, 2 + w.length)
  else none

def classRefKws : List Str :=
  ["extends".toList, "implements".toList, "new".toList, "instanceof".toList]

/-- `(?:extends|implements|new|instanceof)\s+(\w+)` (crossfile.py line 93). -/
def matchClassRefSym (_ : Option Char) (s : Str) : Option (Str × Nat) :=
  match classRefKws.findSome? (fun kw =>
      if kw.isPrefixOf s then some kw else none) with
  | none => none
  | some kw =>
    let r1 := s.drop kw.length
    let ws := r1.takeWhile isPyWs
    if ws.isEmpty then none
    else
      let w := (r1.drop ws.length).takeWhile isWordChar
      if w.isEmpty then none else some (w, kw.length + ws.length + w.length)

/-- `\b(\w+)\s*\(` (crossfile.py line 96). -/
def matchFnCallSym (prev : Option Char) (s : Str) : Option (Str × Nat) :=
  match prev with
  | some p => if isWordChar p then none else matchFnCallSymCore s
  | none => matchFnCallSymCore s
where
  matchFnCallSymCore (s : Str) : Option (Str × Nat) :=
    let w := s.takeWhile isWordChar
    if w.isEmpty then none
    else
      let r1 := s.drop w.length
      let ws := r1.takeWhile isPyWs
      if (r1.drop ws.length).head? = some '(' then
        some (w, w.length + ws.length + 1)
      else none

/-- `_extract_referenced_symbols` (crossfile.py lines 80-98), as the list of
captured names (Python stores them in a set; only membership is consumed). -/
def _extract_referenced_symbols (source : Str) : List Str :=
  reScan matchCallSym source ++ reScan matchStaticSym source ++
  reScan matchClassRefSym source ++ reScan matchFnCallSym source

def phpModKws : List Str :=
  ["public".toList, "protected".toList, "private".toList, "static".toList,
   "abstract".toList, "final".toList]

def phpMemberModKws : List Str :=
  ["public".toList, "protected".toList, "private".toList, "static".toList]

/-- One iteration of `(?:(?:kw1|...)\s+)*`: consume a modifier keyword
followed by at least one whitespace char. -/
def tryMod (kws : List Str) (s : Str) : Option Str :=
  kws.findSome? (fun kw =>
    if kw.isPrefixOf s then
      let r := s.drop kw.length
      let ws := r.takeWhile isPyWs
      if ws.isEmpty then none else some (r.drop ws.length)
    else none)

def consumeMods (kws : List Str) : Nat → Str → Str
  | 0, s => s
  | f + 1, s =>
    match tryMod kws s with
    | none => s
    | some r => consumeMods kws f r

/-- `re.match(r"\s*(?:(?:public|protected|private|static|abstract|final)\s+)*`
`function\s+(\w+)\s*\(", line)` (crossfile.py lines 35-39): the method name
when the line declares a method. -/
def matchPhpMethod (line : Str) : Option Str :=
  let s1 := consumeMods phpModKws line.length (line.dropWhile isPyWs)
  if "function".toList.isPrefixOf s1 then
    let s2 := s1.drop 8
    let ws := s2.takeWhile isPyWs
    if ws.isEmpty then none
    else
      let s3 := s2.drop ws.length
      let w := s3.takeWhile isWordChar
      if w.isEmpty then none
      else if ((s3.drop w.length).dropWhile isPyWs).head? = some '(' then
        some w
      else none
  else none

/-- The tail alternative `(?:const |(?:\?\w+|\w+) \$)` of the member
regex (crossfile.py lines 57-58). -/
def memberTail (s : Str) : Bool :=
  if "const ".toList.isPrefixOf s then true
  else
    let s2 := if s.head? = some '?' then s.drop 1 else s
    let w := s2.takeWhile isWordChar
    !w.isEmpty && " $".toList.isPrefixOf (s2.drop w.length)

/-- Backtracking over the number of `(?:(?:public|protected|private|static)`
`\s+)` iterations: at every prefix of the deterministic modifier chain the
tail alternative gets a chance.  Each iteration consumes at least two
characters, so the string length bounds the fuel. -/
def matchPhpMemberAux (kws : List Str) : Nat → Str → Bool
  | 0, s => memberTail s
  | f + 1, s =>
    memberTail s ||
      match tryMod kws s with
      | none => false
      | some r => matchPhpMemberAux kws f r

/-- `re.match(r"\s*(?:(?:public|protected|private|static)\s+)*`
`(?:const |(?:\?\w+|\w+) \$)", stripped)` (crossfile.py lines 57-58).
Python's engine backtracks over the number of modifier iterations, so the
line matches when the tail matches after ANY number of consumed
`modifier + whitespace` steps: `public $x;` matches with zero iterations,
the tail's `\w+` consuming `public`.  The remaining greediness needs no
backtracking: the four keywords are pairwise non-prefix (each position
admits at most one), and giving back `\s+`/`\w+` characters leaves the
cursor before a whitespace resp. word character, which no continuation of
the pattern can accept. -/
def matchPhpMember (stripped : Str) : Bool :=
  matchPhpMemberAux phpMemberModKws stripped.length
    (stripped.dropWhile isPyWs)

/-- `re.search(r"const\s+(\w+)", stripped)` (crossfile.py line 62). -/
def searchConstName (s : Str) : Option Str :=
  reSearch (fun t =>
    if "const".toList.isPrefixOf t then
      let r := t.drop 5
      let ws := r.takeWhile isPyWs
      if ws.isEmpty then none
      else
        let w := (r.drop ws.length).takeWhile isWordChar
        if w.isEmpty then none else some w
    else none) s

/-- `re.search(r"\$(\w+)", stripped)` (crossfile.py line 63). -/
def searchDollarName (s : Str) : Option Str :=
  reSearch (fun t =>
    match t with
    | '$' :: r =>
      let w := r.takeWhile isWordChar
      if w.isEmpty then none else some w
    | _ => none) s

def sigAlwaysKeep : List Str :=
  ["namespace ".toList, "use ".toList, "class ".toList, "interface ".toList,
   "trait ".toList, "abstract class".toList, "final class".toList,
   "enum ".toList]

/-- The per-line body of `extract_file_signature`'s loop
(crossfile.py lines 24-67): the signature lines this line contributes. -/
def sigLineStep (referencedSymbols : Option (List Str)) (line : Str) :
    List Str :=
  let stripped := pyStrip line
  if pyStartsWithAny stripped sigAlwaysKeep then [line]
  else
    match matchPhpMethod line with
    | some methodName =>
      if (match referencedSymbols with
          | some rs => !rs.contains methodName
          | none => false) then []
      else
        let sig := pyRStrip line
        if containsSub sig ['\x7b'] then
          [sig.take ((findSub sig ['\x7b']).getD 0) ++ "\x7b ... \x7d".toList]
        else if containsSub sig [';'] then [sig]
        else [sig ++ " \x7b ... \x7d".toList]
    | none =>
      if matchPhpMember stripped then
        match referencedSymbols with
        | some rs =>
          (match (match searchConstName stripped with
                  | some n => some n
                  | none => searchDollarName stripped) with
           | some n => if rs.contains n then [line] else []
           | none => [line])
        | none => [line]
      else []

/-- `extract_file_signature` (crossfile.py lines 6-77). -/
def extract_file_signature (source : Str) (fileName : String)
    (referencedSymbols : Option (List Str)) (maxLines : Nat := 40) : Str :=
  let sigLines := (splitNl source).foldl
    (fun acc line => acc ++ sigLineStep referencedSymbols line) []
  if sigLines.isEmpty then []
  else
    let capped :=
      if maxLines < sigLines.length then sigLines.take maxLines else sigLines
    ("// --- ".toList ++ fileName.toList ++ " ---\n".toList) ++ joinNl capped

def squote : Char := Char.ofNat 39

def splitOnChar (sep : Char) : Str → List Str
  | [] => [[]]
  | c :: t =>
    if c = sep then [] :: splitOnChar sep t
    else
      match splitOnChar sep t with
      | [] => [[c]]
      | h :: r => (c :: h) :: r

/-- `use\s+([\w\\]+?)(?:\s+as\s+\w+)?;` (crossfile.py line 116), returning
the imported class name `fqcn.split("\\")[-1]`. -/
def matchUse (_ : Option Char) (s : Str) : Option (Str × Nat) :=
  if "use".toList.isPrefixOf s then
    let r1 := s.drop 3
    let ws := r1.takeWhile isPyWs
    if ws.isEmpty then none
    else
      let r2 := r1.drop ws.length
      let fq := r2.takeWhile (fun c => isWordChar c || c = '\\')
      if fq.isEmpty then none
      else
        let r3 := r2.drop fq.length
        let asLen :=
          let w1 := r3.takeWhile isPyWs
          if w1.isEmpty then none
          else if "as".toList.isPrefixOf (r3.drop w1.length) then
            let r4 := (r3.drop w1.length).drop 2
            let w2 := r4.takeWhile isPyWs
            if w2.isEmpty then none
            else
              let nm := (r4.drop w2.length).takeWhile isWordChar
              if nm.isEmpty then none
              else some (w1.length + 2 + w2.length + nm.length)
          else none
        match asLen with
        | some al =>
          if (r3.drop al).head? = some ';' then
            some ((splitOnChar '\\' fq).getLastD [],
              3 + ws.length + fq.length + al + 1)
          else none
        | none =>
          if r3.head? = some ';' then
            some ((splitOnChar '\\' fq).getLastD [],
              3 + ws.length + fq.length + 1)
          else none
  else none

/-- `(?:require|include)(?:_once)?\s*\(\s*[quote]([^quotes]+?)[quote]\s*\)`
(crossfile.py line 123), returning the quoted path. -/
def matchRequire (_ : Option Char) (s : Str) : Option (Str × Nat) :=
  let kw? : Option Nat :=
    if "require".toList.isPrefixOf s then some 7
    else if "include".toList.isPrefixOf s then some 7
    else none
  match kw? with
  | none => none
  | some k0 =>
    let k := if "_once".toList.isPrefixOf (s.drop k0) then k0 + 5 else k0
    let r1 := s.drop k
    let ws1 := r1.takeWhile isPyWs
    let r2 := r1.drop ws1.length
    if r2.head? = some '(' then
      let r3 := (r2.drop 1)
      let ws2 := r3.takeWhile isPyWs
      let r4 := r3.drop ws2.length
      match r4.head? with
      | some q =>
        if q = squote || q = '"' then
          let inner := (r4.drop 1).takeWhile (fun c => !(c = squote || c = '"'))
          if inner.isEmpty then none
          else
            let r5 := (r4.drop 1).drop inner.length
            match r5.head? with
            | some q2 =>
              if q2 = squote || q2 = '"' then
                let ws3 := (r5.drop 1).takeWhile isPyWs
                if ((r5.drop 1).drop ws3.length).head? = some ')' then
                  some (inner, k + ws1.length + 1 + ws2.length + 1
                    + inner.length + 1 + ws3.length + 1)
                else none
              else none
            | none => none
        else none
      | none => none
    else none

/-- `os.path.splitext(name)[0]` for a basename. -/
def pySplitextStem (name : Str) : Str :=
  match name.reverse.findIdx? (fun c => c = '.') with
  | none => name
  | some r =>
    let i := name.length - 1 - r
    if (name.take i).any (fun c => c ≠ '.') then name.take i else name

def pyBasename (p : Str) : Str := (splitOnChar '/' p).getLastD []

def fileName (f : PyFile) : String := f.path.getLastD ""

/-- `Path.stem`: the final path component without its extension. -/
def fileStem (f : PyFile) : Str := pySplitextStem (fileName f).toList

/-- `find_related_files` (crossfile.py lines 101-137). -/
def find_related_files (filepath : PyFile) (allFiles : List PyFile)
    (root : List String) (source : Str) : List PyFile :=
  let useClasses := reScan matchUse source
  let requireFiles := (reScan matchRequire source).map
    (fun fp => pySplitextStem (pyBasename fp))
  (allFiles.filter (fun f =>
    f ≠ filepath ∧
      (useClasses.contains (fileStem f) ∨
       requireFiles.contains (fileStem f)))).take 5

/-- Whole-word occurrence of `kw` in a line (`\b kw \b`), with the previous
character threaded for the left boundary. -/
def containsWordKw (kw : Str) : Option Char → Str → Bool
  | _, [] => false
  | prev, c :: t =>
    if (match prev with | some p => !isWordChar p | none => true) &&
        kw.isPrefixOf (c :: t) &&
        (match ((c :: t).drop kw.length).head? with
         | some d => !isWordChar d
         | none => true) then true
    else containsWordKw kw (some c) t

/-- `re.match(r".*\b(?:extends|implements)\b", line)` (crossfile.py
line 172): the line mentions `extends` or `implements` as a whole word. -/
def lineMatchesExtends (line : Str) : Bool :=
  containsWordKw "extends".toList none line ||
  containsWordKw "implements".toList none line

/-- The body of `build_cross_file_context`'s loop over related files
(crossfile.py lines 162-184).  The accumulator carries (collected
signatures, running char total, broke); the `break` on a budget overflow is
the flag. -/
def xfStep (charBudget : Nat) (source : Str) (referenced : List Str)
    (st : List Str × Nat × Bool) (relFile : PyFile) :
    List Str × Nat × Bool :=
  if st.2.2 then st
  else
    match relFile.content with
    | none => st
    | some relSource =>
      let extendsThis := (splitNl source).any (fun line =>
        lineMatchesExtends line && containsSub line (fileStem relFile))
      let filterSymbols := if extendsThis then none else some referenced
      let sig := extract_file_signature relSource (fileName relFile)
        filterSymbols
      if sig.isEmpty then st
      else if charBudget < st.2.1 + sig.length then (st.1, st.2.1, true)
      else (st.1 ++ [sig], st.2.1 + sig.length, false)

/-- `build_cross_file_context` (crossfile.py lines 140-189). -/
def build_cross_file_context (filepath : PyFile) (allFiles : List PyFile)
    (root : List String) (source : Str) (maxTokens : Nat := 1024) : Str :=
  let related := find_related_files filepath allFiles root source
  if related.isEmpty then []
  else
    let st := related.foldl
      (xfStep (maxTokens * 4) source (_extract_referenced_symbols source))
      ([], 0, false)
    if st.1.isEmpty then []
    else List.intercalate "\n\n".toList st.1 ++ "\n\n".toList

theorem intercalate_length_le (sep : Str) :
    ∀ l : List Str,
      (List.intercalate sep l).length
        ≤ (l.map List.length).sum + sep.length * (l.length - 1)
  | [] => by simp [List.intercalate]
  | [x] => by simp [List.intercalate]
  | x :: y :: r => by
    have ih := intercalate_length_le sep (y :: r)
    have hc : List.intercalate sep (x :: y :: r)
        = x ++ (sep ++ List.intercalate sep (y :: r)) := by
      simp [List.intercalate, List.join]
    have hlen : (y :: r).length - 1 = r.length := by simp
    rw [hlen] at ih
    have hmul : sep.length * ((x :: y :: r).length - 1)
        = sep.length * r.length + sep.length := by
      have h2 : (x :: y :: r).length - 1 = r.length + 1 := by simp
      rw [h2, Nat.mul_succ]
    rw [hc, hmul]
    simp only [List.length_append, List.map_cons, List.sum_cons]
    simp only [List.map_cons, List.sum_cons] at ih
    omega

/-- Invariant of the signature-collection fold: the running total is the sum
of the collected signatures' lengths, it never exceeds the budget, and at
most one signature is collected per related file. -/
theorem xf_fold_inv {β : Type}
    (step : (List Str × Nat × Bool) → β → (List Str × Nat × Bool))
    (budget : Nat)
    (hstep : ∀ st b,
      st.2.1 = (st.1.map List.length).sum → st.2.1 ≤ budget →
      (step st b).2.1 = ((step st b).1.map List.length).sum ∧
      (step st b).2.1 ≤ budget ∧
      (step st b).1.length ≤ st.1.length + 1) :
    ∀ (files : List β) (st : List Str × Nat × Bool),
      st.2.1 = (st.1.map List.length).sum → st.2.1 ≤ budget →
      (files.foldl step st).2.1
          = ((files.foldl step st).1.map List.length).sum ∧
      (files.foldl step st).2.1 ≤ budget ∧
      (files.foldl step st).1.length ≤ st.1.length + files.length := by
  intro files
  induction files with
  | nil => intro st h1 h2; exact ⟨h1, h2, by simp⟩
  | cons f fs ih =>
    intro st h1 h2
    obtain ⟨g1, g2, g3⟩ := hstep st f h1 h2
    obtain ⟨k1, k2, k3⟩ := ih (step st f) g1 g2
    refine ⟨k1, k2, ?_⟩
    simp only [List.foldl_cons, List.length_cons] at k3 ⊢
    omega

theorem xfStep_inv (charBudget : Nat) (source : Str) (referenced : List Str)
    (st : List Str × Nat × Bool) (b : PyFile)
    (h1 : st.2.1 = (st.1.map List.length).sum) (h2 : st.2.1 ≤ charBudget) :
    (xfStep charBudget source referenced st b).2.1
      = ((xfStep charBudget source referenced st b).1.map List.length).sum ∧
    (xfStep charBudget source referenced st b).2.1 ≤ charBudget ∧
    (xfStep charBudget source referenced st b).1.length ≤ st.1.length + 1 := by
  unfold xfStep
  split
  · exact ⟨h1, h2, by omega⟩
  · cases b.content with
    | none =>
      dsimp only
      exact ⟨h1, h2, by omega⟩
    | some relSource =>
      dsimp only
      split
      all_goals
        split
        · exact ⟨h1, h2, by omega⟩
        · split
          · exact ⟨h1, h2, by dsimp only; omega⟩
          · exact ⟨by simp [h1], by dsimp only; omega, by simp⟩

/-- Claim C5 (amended): the loop admits a signature only while the running
total of signature lengths stays within the char budget `max_tokens × 4`, so
the returned block exceeds the budget only by its `"\n\n"` separators: its
length is at most `max_tokens × 4 + 2 × 5` (at most five related files).
The stronger original bound `≤ max_tokens × 4` is false — see the
counterexample, where the separators push the block over the budget. -/
theorem C5_build_cross_file_context_length (filepath : PyFile)
    (allFiles : List PyFile) (root : List String) (source : Str)
    (maxTokens : Nat) :
    (build_cross_file_context filepath allFiles root source maxTokens).length
      ≤ maxTokens * 4 + 2 * 5 := by
  unfold build_cross_file_context
  dsimp only
  split
  · simp
  · rename_i hrel
    obtain ⟨i1, i2, i3⟩ := xf_fold_inv
      (xfStep (maxTokens * 4) source (_extract_referenced_symbols source))
      (maxTokens * 4)
      (fun st b => xfStep_inv (maxTokens * 4) source
        (_extract_referenced_symbols source) st b)
      (find_related_files filepath allFiles root source)
      ([], 0, false) rfl (by simp)
    set st := (find_related_files filepath allFiles root source).foldl
      (xfStep (maxTokens * 4) source (_extract_referenced_symbols source))
      ([], 0, false) with hst
    split
    · simp
    · rename_i hne
      simp only [List.length_nil] at i3
      have hk : st.1.length ≤ 5 := by
        have h5 : (find_related_files filepath allFiles root source).length
            ≤ 5 := by
          unfold find_related_files
          simp [List.length_take]
        omega
      have hint := intercalate_length_le "\n\n".toList st.1
      have hslen : ("\n\n".toList : Str).length = 2 := by decide
      rw [hslen] at hint
      have hsum : (st.1.map List.length).sum ≤ maxTokens * 4 := by omega
      rw [List.length_append, hslen]
      omega

def c5Target : PyFile := { path := ["T.php"], content := some "use A;".toList }

def c5Dep : PyFile :=
  { path := ["A.php"], content := some "class B \x7b\x7d".toList }

/-- Claim C5 counterexample: with `max_tokens = 7` (char budget 28) the one
admitted signature has 27 chars, so the loop includes it, and the returned
block (signature plus the appended separator) has 29 chars — more than
`max_tokens × 4`. -/
theorem C5_counterexample :
    7 * 4 <
      (build_cross_file_context c5Target [c5Target, c5Dep] [] "use A;".toList
        7).length := by
  decide

/-! ## tree-sitter node model

Parsing is an external library call; the span generators receive the parse
tree, so they are embedded as functions of a `PyNode`.  Byte offsets and
`str` offsets are identified (ASCII model, cf. the header); a node's
`start_point[0]` / `end_point[0]` row equals the number of newlines before
the offset and is modelled as such. -/

inductive PyNode where
  | node (type : String) (startByte endByte : Nat) (children : List PyNode)
deriving Repr

instance : Inhabited PyNode := ⟨.node "" 0 0 []⟩

def PyNode.type : PyNode → String
  | .node t _ _ _ => t

def PyNode.startByte : PyNode → Nat
  | .node _ s _ _ => s

def PyNode.endByte : PyNode → Nat
  | .node _ _ e _ => e

def PyNode.children : PyNode → List PyNode
  | .node _ _ _ cs => cs

/-- Consecutive children are ordered and non-overlapping. -/
def nodesOrdered : List PyNode → Bool
  | [] => true
  | [_] => true
  | a :: b :: r => decide (a.endByte ≤ b.startByte) && nodesOrdered (b :: r)

mutual
def PyNode.wfB : PyNode → Bool
  | .node _ s e cs =>
    decide (s ≤ e) && wfAll s e cs && nodesOrdered cs
def wfAll (s e : Nat) : List PyNode → Bool
  | [] => true
  | c :: r =>
    decide (s ≤ c.startByte) && decide (c.endByte ≤ e) && c.wfB && wfAll s e r
end

mutual
def PyNode.nodes : PyNode → List PyNode
  | .node t s e cs => .node t s e cs :: nodesList cs
def nodesList : List PyNode → List PyNode
  | [] => []
  | c :: r => c.nodes ++ nodesList r
end

theorem wfAll_mem {s e : Nat} {cs : List PyNode} (h : wfAll s e cs = true)
    {c : PyNode} (hc : c ∈ cs) :
    s ≤ c.startByte ∧ c.endByte ≤ e ∧ c.wfB = true := by
  induction cs with
  | nil => cases hc
  | cons a r ih =>
    rw [wfAll] at h
    simp only [Bool.and_eq_true, decide_eq_true_eq] at h
    rcases List.mem_cons.mp hc with rfl | hmem
    · exact ⟨h.1.1.1, h.1.1.2, h.1.2⟩
    · exact ih h.2 hmem

theorem wfB_parts {t : PyNode} (h : t.wfB = true) :
    t.startByte ≤ t.endByte ∧ wfAll t.startByte t.endByte t.children = true ∧
    nodesOrdered t.children = true := by
  cases t with
  | node ty s e cs =>
    rw [PyNode.wfB] at h
    simp only [Bool.and_eq_true, decide_eq_true_eq] at h
    exact ⟨h.1.1, h.1.2, h.2⟩

theorem nodesOrdered_tail {a : PyNode} {r : List PyNode}
    (h : nodesOrdered (a :: r) = true) : nodesOrdered r = true := by
  cases r with
  | nil => rfl
  | cons b rr =>
    rw [nodesOrdered] at h
    simp only [Bool.and_eq_true] at h
    exact h.2

/-- In an ordered list of nodes each of whose ranges are proper
(`s ≤ e`), an earlier node ends before a later one starts. -/
theorem nodesOrdered_pairwise {cs : List PyNode}
    (hord : nodesOrdered cs = true)
    (hwf : ∀ c ∈ cs, c.startByte ≤ c.endByte) :
    ∀ i j, i < j → j < cs.length →
      (cs.getD i default).endByte ≤ (cs.getD j default).startByte := by
  induction cs with
  | nil => intro i j _ hj; simp at hj
  | cons a r ih =>
    intro i j hij hj
    cases i with
    | zero =>
      cases j with
      | zero => omega
      | succ j' =>
        -- a ends before r[0] starts; chain through r
        cases r with
        | nil => simp at hj
        | cons b rr =>
          rw [nodesOrdered] at hord
          simp only [Bool.and_eq_true, decide_eq_true_eq] at hord
          have hchain : ∀ k, k < (b :: rr).length →
              b.startByte ≤ ((b :: rr).getD k default).startByte := by
            intro k hk
            induction k with
            | zero => simp
            | succ k' ihk =>
              have h1 := ih (nodesOrdered_tail (by
                rw [nodesOrdered]
                simp only [Bool.and_eq_true, decide_eq_true_eq]
                exact hord))
                (fun c hc => hwf c (List.mem_cons_of_mem a hc)) 0 (k' + 1)
                (by omega) (by simpa using hk)
            -- b = (b :: rr).getD 0, so b.end ≤ getD (k'+1) start
              have hb := hwf b (by simp)
              simp only [List.getD_cons_zero] at h1
              have := ihk (by omega)
              omega
          have := hchain j' (by simpa using hj)
          simp only [List.getD_cons_zero, List.getD_cons_succ]
          omega
    | succ i' =>
      cases j with
      | zero => omega
      | succ j' =>
        simp only [List.getD_cons_succ]
        exact ih (nodesOrdered_tail hord)
          (fun c hc => hwf c (List.mem_cons_of_mem a hc)) i' j'
          (by omega) (by simpa using hj)

mutual
theorem nodes_range : ∀ (t : PyNode), t.wfB = true →
    ∀ m ∈ t.nodes, t.startByte ≤ m.startByte ∧ m.endByte ≤ t.endByte ∧
      m.startByte ≤ m.endByte ∧ m.wfB = true
  | .node ty s e cs => by
    intro hwf m hm
    rw [PyNode.nodes] at hm
    rcases List.mem_cons.mp hm with rfl | hm'
    · obtain ⟨h1, _, _⟩ := wfB_parts hwf
      exact ⟨le_refl _, le_refl _, h1, hwf⟩
    · obtain ⟨-, h2, -⟩ := wfB_parts hwf
      have hr := nodesList_range cs (PyNode.node ty s e cs).startByte
        (PyNode.node ty s e cs).endByte h2 m hm'
      exact hr
theorem nodesList_range : ∀ (cs : List PyNode) (s e : Nat),
    wfAll s e cs = true →
    ∀ m ∈ nodesList cs, s ≤ m.startByte ∧ m.endByte ≤ e ∧
      m.startByte ≤ m.endByte ∧ m.wfB = true
  | [], _, _ => by
    intro _ m hm
    rw [nodesList] at hm
    cases hm
  | c :: r, s, e => by
    intro hall m hm
    rw [nodesList] at hm
    rw [wfAll] at hall
    simp only [Bool.and_eq_true, decide_eq_true_eq] at hall
    rcases List.mem_append.mp hm with hm1 | hm2
    · have hr := nodes_range c hall.1.2 m hm1
      exact ⟨le_trans hall.1.1.1 hr.1, le_trans hr.2.1 hall.1.1.2,
        hr.2.2.1, hr.2.2.2⟩
    · exact nodesList_range r s e hall.2 m hm2
end

theorem self_mem_nodes (t : PyNode) : t ∈ t.nodes := by
  cases t with
  | node ty s e cs =>
    rw [PyNode.nodes]
    exact List.mem_cons_self _ _

theorem mem_nodesList_of_mem {c : PyNode} {cs : List PyNode} (hc : c ∈ cs)
    {m : PyNode} (hm : m ∈ c.nodes) : m ∈ nodesList cs := by
  induction cs with
  | nil => cases hc
  | cons a r ih =>
    rw [nodesList]
    rcases List.mem_cons.mp hc with rfl | hmem
    · exact List.mem_append_left _ hm
    · exact List.mem_append_right _ (ih hmem)

mutual
/-- `_find_deepest_containing` (`generate/_spans_ast.py`, lines 24-29):
recurse into the first child whose byte range fully contains `[start, end)`. -/
def _find_deepest_containing : PyNode → Nat → Nat → PyNode
  | .node ty s e cs, start, en =>
    match fdcList cs start en with
    | some r => r
    | none => .node ty s e cs
def fdcList : List PyNode → Nat → Nat → Option PyNode
  | [], _, _ => none
  | c :: rest, start, en =>
    if c.startByte ≤ start && en ≤ c.endByte then
      some (_find_deepest_containing c start en)
    else fdcList rest start en
end

mutual
theorem fd_mem : ∀ (t : PyNode) (a b : Nat),
    _find_deepest_containing t a b ∈ t.nodes
  | .node ty s e cs, a, b => by
    rw [_find_deepest_containing]
    cases hf : fdcList cs a b with
    | none =>
      rw [PyNode.nodes]
      exact List.mem_cons_self _ _
    | some r =>
      rw [PyNode.nodes]
      exact List.mem_cons_of_mem _ (fdcList_mem cs a b r hf)
theorem fdcList_mem : ∀ (cs : List PyNode) (a b : Nat) (r : PyNode),
    fdcList cs a b = some r → r ∈ nodesList cs
  | [], _, _, r => by
    intro h
    rw [fdcList] at h
    cases h
  | c :: rest, a, b, r => by
    intro h
    rw [fdcList] at h
    rw [nodesList]
    split at h
    · injection h with h
      subst h
      exact List.mem_append_left _ (fd_mem c a b)
    · exact List.mem_append_right _ (fdcList_mem rest a b r h)
end

/-- The `LanguageConfig` fields the span generators consume
(`fim/language.py` / `fim/languages/*`; the tables are per-language data). -/
structure LanguageConfig where
  name : String := "php"
  trigger_tokens : List Str := []
  ast_eligible_types : List String := []
  ast_bracket_types : List String := []
  ast_function_types : List String := []
  ast_name_node_type : String := "name"
deriving Repr

def commentStarts : List Str :=
  ["//".toList, "/*".toList, "*".toList, "#".toList]

/-! ## Developer-behavior spans (`generate/_spans_devbehavior.py`) -/

/-- The candidate line indices of the random intra-line sub-strategy
(`_spans_devbehavior.py`, lines 29-33). -/
def strat1CandIdxs (lines : List Str) : List Nat :=
  (List.range lines.length).filter (fun i =>
    let st := pyStrip (lines.getD i [])
    !st.isEmpty && !(pyStartsWithAny st commentStarts) &&
      decide (10 < st.length))

/-- `line_start = sum(len(l) + 1 for l in lines[:line_idx])`. -/
def lineStartOf (lines : List Str) (i : Nat) : Nat :=
  ((lines.take i).map (fun l => l.length + 1)).sum

/-- One iteration of the random intra-line sub-strategy
(`_spans_devbehavior.py`, lines 28-58), assuming candidates are non-empty. -/
def strat1Iter (lines : List Str) (g : Rng) : Option CodeSpan × Rng :=
  let candidates := strat1CandIdxs lines
  let (ci, g1) := g.next
  let lineIdx := candidates.getD (ci % candidates.length) 0
  let line := lines.getD lineIdx []
  let stripped := pyLStrip line
  let indentLen := line.length - stripped.length
  if stripped.length < 5 then (none, g1)
  else
    let (off, g2) := pyRandint 3 (stripped.length - 1) g1
    let cutByte := lineStartOf lines lineIdx + indentLen + off
    let lineEndByte := lineStartOf lines lineIdx + line.length
    if lineEndByte - cutByte < 3 then (none, g2)
    else
      (some { kind := "dev_incomplete_line", startLine := lineIdx,
              endLine := lineIdx, startByte := cutByte,
              endByte := lineEndByte }, g2)

def strat1Loop (lines : List Str) : Nat → Rng → List CodeSpan × Rng
  | 0, g => ([], g)
  | n + 1, g =>
    if (strat1CandIdxs lines).isEmpty then ([], g)
    else
      let (sp?, g1) := strat1Iter lines g
      let (rest, g2) := strat1Loop lines n g1
      (sp?.toList ++ rest, g2)

/-- `for tok in trigger_tokens: pos = stripped.find(tok); if pos >= 0: break`
(`_spans_devbehavior.py`, lines 69-73). -/
def findTok (stripped : Str) (toks : List Str) : Option (Str × Nat) :=
  toks.findSome? (fun tok =>
    match findSub stripped tok with
    | some pos => some (tok, pos)
    | none => none)

/-- The trigger candidates of the syntax-aware sub-strategy
(`_spans_devbehavior.py`, lines 64-73). -/
def strat2Cands (lines : List Str) (toks : List Str) :
    List (Nat × Str × Str × Nat) :=
  (List.range lines.length).filterMap (fun i =>
    let line := lines.getD i []
    let st := pyStrip line
    if st.isEmpty || pyStartsWithAny st commentStarts then none
    else (findTok st toks).map (fun p => (i, line, p.1, p.2)))

/-- One iteration of the syntax-aware sub-strategy
(`_spans_devbehavior.py`, lines 63-100), assuming candidates non-empty. -/
def strat2Iter (source : Str) (lines : List Str) (toks : List Str)
    (tree : Option PyNode) (g : Rng) : Option CodeSpan × Rng :=
  let cands := strat2Cands lines toks
  let (ci, g1) := g.next
  let cand := cands.getD (ci % cands.length) (0, [], [], 0)
  let lineIdx := cand.1
  let line := cand.2.1
  let tok := cand.2.2.1
  let tokPosInStripped := cand.2.2.2
  let indentLen := line.length - (pyLStrip line).length
  let cutInLine := indentLen + tokPosInStripped + tok.length
  let lineStart := lineStartOf lines lineIdx
  let endByte0 := lineStart + line.length
  let endByte :=
    match tree with
    | none => endByte0
    | some t =>
      let cutAbs := lineStart + cutInLine
      let nd := _find_deepest_containing t cutAbs (cutAbs + 1)
      if cutAbs < nd.endByte then nd.endByte else endByte0
  let cutByte := lineStart + cutInLine
  if endByte - cutByte < 3 then (none, g1)
  else
    (some { kind := "dev_incomplete_line", startLine := lineIdx,
            endLine := (source.take endByte).count '\n',
            startByte := cutByte, endByte := endByte }, g1)

def strat2Loop (source : Str) (lines : List Str) (toks : List Str)
    (tree : Option PyNode) : Nat → Rng → List CodeSpan × Rng
  | 0, g => ([], g)
  | n + 1, g =>
    if (strat2Cands lines toks).isEmpty then ([], g)
    else
      let (sp?, g1) := strat2Iter source lines toks tree g
      let (rest, g2) := strat2Loop source lines toks tree n g1
      (sp?.toList ++ rest, g2)

/-- `generate_incomplete_line_spans` (`_spans_devbehavior.py`, lines 15-102). -/
def generate_incomplete_line_spans (source : Str) (tree : Option PyNode)
    (lc : LanguageConfig) (g : Rng) : List CodeSpan × Rng :=
  let lines := splitNl source
  let targetCount := max 1 (lines.length / 15)
  let (spans1, g1) := strat1Loop lines (targetCount / 2 + 1) g
  let (spans2, g2) :=
    strat2Loop source lines lc.trigger_tokens tree (targetCount / 2 + 1) g1
  (spans1 ++ spans2, g2)

/-- `random.sample` over a population without decidable equality: each draw
removes the drawn index. -/
def pySampleIdx {α : Type} : List α → Nat → Rng → List α × Rng
  | _, 0, g => ([], g)
  | [], _ + 1, g => ([], g)
  | x :: xs, k + 1, g =>
    let i := (g.next).1 % (x :: xs).length
    let (ys, g2) := pySampleIdx ((x :: xs).eraseIdx i) k (g.next).2
    ((x :: xs).getD i x :: ys, g2)

mutual
/-- `_collect_bracket_nodes` (`_spans_devbehavior.py`, lines 121-127). -/
def collectBracketNodes (bracketTypes : List String) : PyNode → List PyNode
  | .node t s e cs =>
    (if bracketTypes.contains t ∧ 2 ≤ cs.length ∧ 3 < e - s ∧ e - s < 2000
     then [PyNode.node t s e cs] else []) ++ collectBracketList bracketTypes cs
def collectBracketList (bracketTypes : List String) :
    List PyNode → List PyNode
  | [] => []
  | c :: r =>
    collectBracketNodes bracketTypes c ++ collectBracketList bracketTypes r
end

/-- `generate_bracket_context_spans` (`_spans_devbehavior.py`,
lines 105-156). -/
def generate_bracket_context_spans (source : Str) (tree : Option PyNode)
    (lc : LanguageConfig) (g : Rng) : List CodeSpan × Rng :=
  match tree with
  | none => ([], g)
  | some t =>
    let bracketNodes := collectBracketNodes lc.ast_bracket_types t
    if bracketNodes.isEmpty then ([], g)
    else
      let targetCount := max 1 ((splitNl source).length / 40)
      let (chosen, g1) :=
        pySampleIdx bracketNodes (min targetCount bracketNodes.length) g
      (chosen.filterMap (fun node =>
        let first := node.children.getD 0 node
        let last := node.children.getLastD node
        let innerStart := first.endByte
        let innerEnd := last.startByte
        if innerEnd - innerStart < 2 then none
        else
          some { kind := "dev_bracket_content",
                 startLine := (source.take innerStart).count '\n',
                 endLine := (source.take innerEnd).count '\n',
                 startByte := innerStart, endByte := innerEnd }), g1)

mutual
/-- `_collect_comment_spans` (`_spans_devbehavior.py`, lines 172-190): for
each child that is a `//` or `/*` comment with a non-comment successor wider
than 5 bytes, a span over that successor; then recursion into every child
that itself has children. -/
def _collect_comment_spans (source : Str) : PyNode → List CodeSpan
  | .node _ _ _ cs => postWalk source cs
def postWalk (source : Str) : List PyNode → List CodeSpan
  | [] => []
  | [c] =>
    (if c.children.isEmpty then [] else _collect_comment_spans source c)
  | c :: next :: rest =>
    (if c.type = "comment" ∧
        (pyStartsWith (pyStrip (pySlice source c.startByte c.endByte))
            "//".toList = true ∨
          pyStartsWith (pyStrip (pySlice source c.startByte c.endByte))
            "/*".toList = true) ∧
        next.type ≠ "comment" ∧ 5 < next.endByte - next.startByte then
       [{ kind := "dev_post_comment",
          startLine := (source.take next.startByte).count '\n',
          endLine := (source.take next.endByte).count '\n',
          startByte := next.startByte, endByte := next.endByte }]
     else [])
      ++ (if c.children.isEmpty then [] else _collect_comment_spans source c)
      ++ postWalk source (next :: rest)
end

/-- `generate_post_comment_spans` (`_spans_devbehavior.py`, lines 159-198);
`lang_config` is accepted and unused, as in the source. -/
def generate_post_comment_spans (source : Str) (tree : Option PyNode)
    (lc : LanguageConfig) (g : Rng) : List CodeSpan × Rng :=
  match tree with
  | none => ([], g)
  | some t =>
    let spans := _collect_comment_spans source t
    let targetCount := max 1 ((splitNl source).length / 60)
    if targetCount < spans.length then pySampleIdx spans targetCount g
    else (spans, g)

/-! ## C4 support lemmas -/

theorem joinNl_cons (x : Str) (r : List Str) (h : r ≠ []) :
    joinNl (x :: r) = x ++ '\n' :: joinNl r := by
  cases r with
  | nil => exact absurd rfl h
  | cons m s => simp [joinNl, List.intercalate, List.join]

theorem splitNl_ne_nil : ∀ s : Str, splitNl s ≠ []
  | [] => by rw [splitNl]; exact List.cons_ne_nil _ _
  | c :: t => by
    rw [splitNl]
    split
    · exact List.cons_ne_nil _ _
    · cases hs : splitNl t with
      | nil => exact List.cons_ne_nil _ _
      | cons h r => exact List.cons_ne_nil _ _

theorem joinNl_splitNl : ∀ s : Str, joinNl (splitNl s) = s
  | [] => by rw [splitNl]; simp [joinNl, List.intercalate]
  | c :: t => by
    have ih := joinNl_splitNl t
    rw [splitNl]
    by_cases hc : c = '\n'
    · subst hc
      rw [if_pos rfl, joinNl_cons _ _ (splitNl_ne_nil t), ih]
      simp
    · rw [if_neg hc]
      cases hs : splitNl t with
      | nil => exact absurd hs (splitNl_ne_nil t)
      | cons h r =>
        rw [hs] at ih
        cases r with
        | nil =>
          have h1 : joinNl [c :: h] = c :: h := by
            simp [joinNl, List.intercalate]
          have h2 : joinNl [h] = h := by simp [joinNl, List.intercalate]
          rw [h2] at ih
          rw [h1, ih]
        | cons m s =>
          rw [joinNl_cons _ _ (List.cons_ne_nil _ _)]
          rw [joinNl_cons _ _ (List.cons_ne_nil _ _)] at ih
          rw [List.cons_append, ih]

theorem lineStart_len_le :
    ∀ (lines : List Str) (i : Nat), i < lines.length →
      lineStartOf lines i + (lines.getD i []).length ≤ (joinNl lines).length
  | [], i, hi => by cases hi
  | [l], 0, _ => by
    simp [lineStartOf, joinNl, List.intercalate]
  | [l], i + 1, hi => by
    simp at hi
  | l :: m :: r, 0, _ => by
    rw [joinNl_cons _ _ (List.cons_ne_nil _ _)]
    simp [lineStartOf]
  | l :: m :: r, i + 1, hi => by
    have ih := lineStart_len_le (m :: r) i (by simpa using hi)
    rw [joinNl_cons _ _ (List.cons_ne_nil _ _)]
    have hls : lineStartOf (l :: m :: r) (i + 1)
        = l.length + 1 + lineStartOf (m :: r) i := by
      simp only [lineStartOf, List.take_succ_cons, List.map_cons,
        List.sum_cons]
    rw [hls, List.getD_cons_succ, List.length_append, List.length_cons]
    omega

theorem getD_mem {α : Type} (l : List α) (k : Nat) (d : α)
    (hk : k < l.length) : l.getD k d ∈ l := by
  rw [List.getD_eq_getElem?_getD, List.getElem?_eq_getElem hk]
  exact List.getElem_mem hk

theorem getLastD_mem {α : Type} : ∀ (l : List α) (d : α), l.getLastD d ∈ d :: l
  | [], d => by simp [List.getLastD]
  | a :: l, d => by
    rw [List.getLastD_cons]
    exact List.mem_cons_of_mem d (getLastD_mem l a)

theorem pySampleIdx_subset {α : Type} :
    ∀ (l : List α) (k : Nat) (g : Rng) (y : α),
      y ∈ (pySampleIdx l k g).1 → y ∈ l
  | _, 0, _, _ => by
    rw [pySampleIdx]
    intro h
    cases h
  | [], _ + 1, _, _ => by
    rw [pySampleIdx]
    intro h
    cases h
  | x :: xs, k + 1, g, y => by
    rw [pySampleIdx]
    intro h
    dsimp only at h
    rcases List.mem_cons.mp h with rfl | hmem
    · exact getD_mem _ _ _ (Nat.mod_lt _ (by simp))
    · exact List.eraseIdx_subset _ _
        (pySampleIdx_subset ((x :: xs).eraseIdx _) k _ y hmem)

mutual
theorem collectBracket_mem : ∀ (bt : List String) (t : PyNode) (n : PyNode),
    n ∈ collectBracketNodes bt t → n ∈ t.nodes ∧ 2 ≤ n.children.length
  | bt, .node ty s e cs, n => by
    intro h
    rw [collectBracketNodes] at h
    rcases List.mem_append.mp h with h1 | h2
    · split at h1
      · rcases List.mem_singleton.mp h1 with rfl
        refine ⟨?_, ?_⟩
        · rw [PyNode.nodes]
          exact List.mem_cons_self _ _
        · rename_i hcond
          exact hcond.2.1
      · cases h1
    · obtain ⟨hmem, hcc⟩ := collectBracketList_mem bt cs n h2
      refine ⟨?_, hcc⟩
      rw [PyNode.nodes]
      exact List.mem_cons_of_mem _ hmem
theorem collectBracketList_mem :
    ∀ (bt : List String) (cs : List PyNode) (n : PyNode),
      n ∈ collectBracketList bt cs → n ∈ nodesList cs ∧ 2 ≤ n.children.length
  | _, [], n => by
    intro h
    rw [collectBracketList] at h
    cases h
  | bt, c :: r, n => by
    intro h
    rw [collectBracketList] at h
    rcases List.mem_append.mp h with h1 | h2
    · obtain ⟨hmem, hcc⟩ := collectBracket_mem bt c n h1
      refine ⟨?_, hcc⟩
      rw [nodesList]
      exact List.mem_append.mpr (Or.inl hmem)
    · obtain ⟨hmem, hcc⟩ := collectBracketList_mem bt r n h2
      refine ⟨?_, hcc⟩
      rw [nodesList]
      exact List.mem_append.mpr (Or.inr hmem)
end

/-- In a well-formed node, the last child's start (the fallback is the node
itself) never exceeds the node's end. -/
theorem getLastD_start_le (n : PyNode) (h : n.wfB = true) :
    (n.children.getLastD n).startByte ≤ n.endByte := by
  obtain ⟨hse, hall, _⟩ := wfB_parts h
  rcases List.mem_cons.mp (getLastD_mem n.children n) with heq | hmem
  · rw [heq]
    exact hse
  · obtain ⟨_, hend, hwfc⟩ := wfAll_mem hall hmem
    exact le_trans (wfB_parts hwfc).1 hend

theorem getD_mem_of_ne_nil {α : Type} (l : List α) (k : Nat) (d : α)
    (hne : l ≠ []) : l.getD (k % l.length) d ∈ l := by
  cases l with
  | nil => exact absurd rfl hne
  | cons a r => exact getD_mem _ _ _ (Nat.mod_lt _ (by simp))

theorem strat1CandIdxs_getD_lt (lines : List Str) (k : Nat)
    (hne : lines ≠ []) :
    (strat1CandIdxs lines).getD (k % (strat1CandIdxs lines).length) 0
      < lines.length := by
  cases hcand : strat1CandIdxs lines with
  | nil =>
    simp only [List.getD, List.getElem?_nil, Option.getD_none]
    exact List.length_pos.mpr hne
  | cons a r =>
    have hsub : ∀ x ∈ (a :: r), x < lines.length := by
      intro x hx
      rw [← hcand, strat1CandIdxs] at hx
      exact List.mem_range.mp (List.mem_filter.mp hx).1
    have hk : k % (a :: r).length < (a :: r).length := Nat.mod_lt _ (by simp)
    exact hsub _ (getD_mem _ _ _ hk)

theorem strat1Iter_bounds (lines : List Str) (g : Rng) (sp : CodeSpan)
    (hne : lines ≠ [])
    (h : (strat1Iter lines g).1 = some sp) :
    0 ≤ sp.startByte ∧ sp.startByte < sp.endByte ∧
      sp.endByte ≤ ((joinNl lines).length : Int) := by
  rw [strat1Iter] at h
  rcases hg : g.next with ⟨ci, g1⟩
  rw [hg] at h
  dsimp only at h
  split at h
  · cases h
  · rcases hr : pyRandint 3
        ((pyLStrip (lines.getD ((strat1CandIdxs lines).getD
          (ci % (strat1CandIdxs lines).length) 0) [])).length - 1) g1
      with ⟨off, g2⟩
    rw [hr] at h
    dsimp only at h
    split at h
    · cases h
    · rename_i hguard
      injection h with h
      subst h
      dsimp only
      have hlt := strat1CandIdxs_getD_lt lines ci hne
      have hend := lineStart_len_le lines _ hlt
      refine ⟨Int.ofNat_nonneg _, ?_, ?_⟩
      · exact_mod_cast (by omega :
          lineStartOf lines ((strat1CandIdxs lines).getD
              (ci % (strat1CandIdxs lines).length) 0)
            + ((lines.getD ((strat1CandIdxs lines).getD
                (ci % (strat1CandIdxs lines).length) 0) []).length
              - (pyLStrip (lines.getD ((strat1CandIdxs lines).getD
                (ci % (strat1CandIdxs lines).length) 0) [])).length)
            + off
          < lineStartOf lines ((strat1CandIdxs lines).getD
              (ci % (strat1CandIdxs lines).length) 0)
            + (lines.getD ((strat1CandIdxs lines).getD
                (ci % (strat1CandIdxs lines).length) 0) []).length)
      · exact_mod_cast hend

theorem strat2Cands_mem (lines toks : List Str) (c : Nat × Str × Str × Nat)
    (hc : c ∈ strat2Cands lines toks) :
    c.1 < lines.length ∧ c.2.1 = lines.getD c.1 [] := by
  rw [strat2Cands] at hc
  obtain ⟨i, hi, hf⟩ := List.mem_filterMap.mp hc
  dsimp only at hf
  split at hf
  · cases hf
  · obtain ⟨p, _, he⟩ := Option.map_eq_some'.mp hf
    rw [← he]
    exact ⟨List.mem_range.mp hi, rfl⟩

theorem strat2Iter_bounds (source : Str) (toks : List Str)
    (tree : Option PyNode) (g : Rng) (sp : CodeSpan)
    (hw : ∀ t, tree = some t → t.wfB = true ∧ t.endByte ≤ source.length)
    (hne : strat2Cands (splitNl source) toks ≠ [])
    (h : (strat2Iter source (splitNl source) toks tree g).1 = some sp) :
    0 ≤ sp.startByte ∧ sp.startByte < sp.endByte ∧
      sp.endByte ≤ (source.length : Int) := by
  have hcmem := getD_mem_of_ne_nil (strat2Cands (splitNl source) toks)
    ((g.next).1) (0, [], [], 0) hne
  obtain ⟨hlt, hline⟩ := strat2Cands_mem _ _ _ hcmem
  have hend := lineStart_len_le (splitNl source) _ hlt
  rw [joinNl_splitNl] at hend
  rw [← hline] at hend
  rw [strat2Iter] at h
  rcases hg : g.next with ⟨ci, g1⟩
  rw [hg] at h
  dsimp only at h
  rw [hg] at hcmem hend hlt hline
  cases tree with
  | none =>
    dsimp only at h
    split at h
    · cases h
    · rename_i hguard
      injection h with h
      subst h
      dsimp only
      refine ⟨Int.ofNat_nonneg _, ?_, ?_⟩
      · exact_mod_cast (by omega : _ + _ < _)
      · exact_mod_cast hend
  | some t =>
    dsimp only at h
    obtain ⟨hwf, hroot⟩ := hw t rfl
    have hnd : ∀ a b : Nat,
        (_find_deepest_containing t a b).endByte ≤ source.length :=
      fun a b =>
        le_trans (nodes_range t hwf _ (fd_mem t a b)).2.1 hroot
    split at h
    all_goals
      split at h
    any_goals cases h
    all_goals
      rename_i hguard
    all_goals
      dsimp only
    all_goals
      refine ⟨Int.ofNat_nonneg _, ?_, ?_⟩
    case _ => exact_mod_cast (by omega : _ + _ < _)
    case _ => exact_mod_cast hnd _ _
    case _ => exact_mod_cast (by omega : _ + _ < _)
    case _ => exact_mod_cast hend

theorem strat1Loop_mem :
    ∀ (lines : List Str) (n : Nat) (g : Rng) (sp : CodeSpan),
      sp ∈ (strat1Loop lines n g).1 →
      ∃ g' : Rng, (strat1Iter lines g').1 = some sp
  | lines, 0, g, sp => by
    rw [strat1Loop]
    intro h
    cases h
  | lines, n + 1, g, sp => by
    rw [strat1Loop]
    intro h
    split at h
    · cases h
    · rcases hit : strat1Iter lines g with ⟨sp?, g1⟩
      rw [hit] at h
      dsimp only at h
      rcases hlp : strat1Loop lines n g1 with ⟨rest, g2⟩
      rw [hlp] at h
      dsimp only at h
      rcases List.mem_append.mp h with h1 | h2
      · cases sp? with
        | none => cases h1
        | some v =>
          rcases List.mem_singleton.mp h1 with rfl
          exact ⟨g, by rw [hit]⟩
      · exact strat1Loop_mem lines n g1 sp (by rw [hlp]; exact h2)

theorem strat2Loop_mem :
    ∀ (source : Str) (lines toks : List Str) (tree : Option PyNode)
      (n : Nat) (g : Rng) (sp : CodeSpan),
      sp ∈ (strat2Loop source lines toks tree n g).1 →
      strat2Cands lines toks ≠ [] ∧
        ∃ g' : Rng, (strat2Iter source lines toks tree g').1 = some sp
  | source, lines, toks, tree, 0, g, sp => by
    rw [strat2Loop]
    intro h
    cases h
  | source, lines, toks, tree, n + 1, g, sp => by
    rw [strat2Loop]
    intro h
    split at h
    · cases h
    · rename_i hemp
      rcases hit : strat2Iter source lines toks tree g with ⟨sp?, g1⟩
      rw [hit] at h
      dsimp only at h
      rcases hlp : strat2Loop source lines toks tree n g1 with ⟨rest, g2⟩
      rw [hlp] at h
      dsimp only at h
      rcases List.mem_append.mp h with h1 | h2
      · refine ⟨fun hc => hemp (by rw [hc]; rfl), ?_⟩
        cases sp? with
        | none => cases h1
        | some v =>
          rcases List.mem_singleton.mp h1 with rfl
          exact ⟨g, by rw [hit]⟩
      · exact strat2Loop_mem source lines toks tree n g1 sp
          (by rw [hlp]; exact h2)

theorem bracket_mem_bounds (source : Str) (tree : Option PyNode)
    (lc : LanguageConfig) (g : Rng) (sp : CodeSpan)
    (hw : ∀ t, tree = some t → t.wfB = true ∧ t.endByte ≤ source.length)
    (hsp : sp ∈ (generate_bracket_context_spans source tree lc g).1) :
    0 ≤ sp.startByte ∧ sp.startByte < sp.endByte ∧
      sp.endByte ≤ (source.length : Int) := by
  cases tree with
  | none =>
    rw [generate_bracket_context_spans] at hsp
    cases hsp
  | some t =>
    obtain ⟨hwf, hroot⟩ := hw t rfl
    rw [generate_bracket_context_spans] at hsp
    dsimp only at hsp
    split at hsp
    · cases hsp
    · rcases hch : pySampleIdx (collectBracketNodes lc.ast_bracket_types t)
          (min (max 1 ((splitNl source).length / 40))
            (collectBracketNodes lc.ast_bracket_types t).length) g
        with ⟨chosen, g1⟩
      rw [hch] at hsp
      dsimp only at hsp
      obtain ⟨node, hnode, hf⟩ := List.mem_filterMap.mp hsp
      have hnmem : node ∈ collectBracketNodes lc.ast_bracket_types t :=
        pySampleIdx_subset _ _ _ node (by rw [hch]; exact hnode)
      obtain ⟨hmem, _⟩ := collectBracket_mem _ _ _ hnmem
      have hrange := nodes_range t hwf node hmem
      have hlast := getLastD_start_le node hrange.2.2.2
      split at hf
      · cases hf
      · rename_i hguard
        injection hf with hf
        subst hf
        dsimp only
        refine ⟨Int.ofNat_nonneg _, ?_, ?_⟩
        · exact_mod_cast (by omega :
            (node.children.getD 0 node).endByte
              < (node.children.getLastD node).startByte)
        · exact_mod_cast le_trans hlast (le_trans hrange.2.1 hroot)

/-- Bounds for the two line/bracket developer-behavior generators. -/
theorem devbehavior_mem_bounds (source : Str) (tree : Option PyNode)
    (lc : LanguageConfig) (g : Rng) (sp : CodeSpan)
    (hw : ∀ t, tree = some t → t.wfB = true ∧ t.endByte ≤ source.length)
    (hsp : sp ∈ (generate_incomplete_line_spans source tree lc g).1 ∨
           sp ∈ (generate_bracket_context_spans source tree lc g).1) :
    0 ≤ sp.startByte ∧ sp.startByte < sp.endByte ∧
      sp.endByte ≤ (source.length : Int) := by
  rcases hsp with hsp | hsp
  · rw [generate_incomplete_line_spans] at hsp
    dsimp only at hsp
    rcases h1 : strat1Loop (splitNl source)
        (max 1 ((splitNl source).length / 15) / 2 + 1) g with ⟨spans1, g1⟩
    rw [h1] at hsp
    dsimp only at hsp
    rcases h2 : strat2Loop source (splitNl source) lc.trigger_tokens tree
        (max 1 ((splitNl source).length / 15) / 2 + 1) g1 with ⟨spans2, g2⟩
    rw [h2] at hsp
    dsimp only at hsp
    rcases List.mem_append.mp hsp with hm | hm
    · obtain ⟨g', hg'⟩ := strat1Loop_mem _ _ _ _ (by rw [h1]; exact hm)
      have hb := strat1Iter_bounds (splitNl source) g' sp
        (splitNl_ne_nil source) hg'
      rwa [joinNl_splitNl] at hb
    · obtain ⟨hne, g', hg'⟩ := strat2Loop_mem _ _ _ _ _ _ _
        (by rw [h2]; exact hm)
      exact strat2Iter_bounds source lc.trigger_tokens tree g' sp hw hne hg'
  · exact bracket_mem_bounds source tree lc g sp hw hsp

def c4Source : Str := "abcdefghijklmnopqrstuvwxyz".toList

def c4Span : CodeSpan :=
  { kind := "dev_incomplete_line", startLine := 0, endLine := 0,
    startByte := 3, endByte := 26 }

/-- C4 counterexample: the same emitted span `(3, 26)` has width 23, which
exceeds `len(source)/2 = 13`, refuting the claimed bound
`end_byte − start_byte ≤ len(source)/2`; `generate_incomplete_line_spans`
caps the cut only from the left (offset ≥ 3) and extends to the line's end. -/
theorem C4_counterexample :
    c4Span ∈ (generate_incomplete_line_spans c4Source none {} ⟨[0, 0]⟩).1 ∧
      (c4Source.length : Int) / 2 < c4Span.endByte - c4Span.startByte := by
  decide

/-! ## AST span extraction (`generate/_spans_ast.py`)

The tree-sitter parse is external: `extract_spans_ast` is embedded with the
parsed root node as an input, and byte offsets coincide with character
offsets in the ASCII model.  A node's `start_point[0]` / `end_point[0]` row
is the number of newlines before the corresponding byte. -/

mutual
/-- `_collect_eligible_nodes` (`_spans_ast.py`, lines 14-21). -/
def _collect_eligible_nodes (elig : List String) : PyNode → List PyNode
  | .node ty s e cs =>
    (if elig.contains ty ∧ 5 < e - s then [PyNode.node ty s e cs] else [])
      ++ collectEligList elig cs
def collectEligList (elig : List String) : List PyNode → List PyNode
  | [] => []
  | c :: r => _collect_eligible_nodes elig c ++ collectEligList elig r
end

mutual
/-- `_count_functions_in_node` (`_spans_ast.py`, lines 32-37). -/
def _count_functions_in_node (ft : List String) : PyNode → Nat
  | .node ty _ _ cs =>
    (if ft.contains ty then 1 else 0) + countFnList ft cs
def countFnList (ft : List String) : List PyNode → Nat
  | [] => 0
  | c :: r => _count_functions_in_node ft c + countFnList ft r
end

/-- `func_prefix[j+1] - func_prefix[i]` of `_build_function_prefix_sums`
(`_spans_ast.py`, lines 40-49): the function count in `children[i..j]`. -/
def fnRangeCount (ft : List String) (children : List PyNode)
    (i j : Nat) : Nat :=
  countFnList ft ((children.drop i).take (j + 1 - i))

/-- `_trim_trailing_comments` (`_spans_ast.py`, lines 52-56). -/
def _trim_trailing_comments (children : List PyNode) (i : Nat) : Nat → Nat
  | 0 => 0
  | j + 1 =>
    if i < j + 1 ∧ (children.getD (j + 1) default).type = "comment" then
      _trim_trailing_comments children i j
    else j + 1

/-- The inner-loop indices `j` processed for a fixed `i`
(`_spans_ast.py`, lines 87-90): all of `i..len-1`, stopped at the first `j`
whose child range `[i, j]` holds more than one function when the function
constraint is active. -/
def alignedCandJs (ft : List String) (children : List PyNode)
    (i : Nat) : List Nat :=
  if ft.isEmpty then (List.range children.length).drop i
  else ((List.range children.length).drop i).takeWhile
    (fun j => fnRangeCount ft children i j ≤ 1)

/-- The `(i, j)` pairs the double loop processes, in order. -/
def alignedPairs (ft : List String) (children : List PyNode) :
    List (Nat × Nat) :=
  (List.range children.length).flatMap (fun i =>
    (alignedCandJs ft children i).map (fun j => (i, j)))

structure AlignState where
  bestIou : ℚ
  bestRange : Nat × Nat
  bestIJ : Option (Nat × Nat)
deriving Repr

/-- One step of the IoU maximisation (`_spans_ast.py`, lines 91-101); the
float IoU `intersection / union` and its comparisons are carried out in
exact rational arithmetic (`Rat.divInt`, only reached when `union` is
nonzero), and `best_iou = 0.0` is the rational zero. -/
def alignStep (children : List PyNode) (start en : Nat)
    (st : AlignState) (ij : Nat × Nat) : AlignState :=
  let s := (children.getD ij.1 default).startByte
  let e := (children.getD ij.2 default).endByte
  let inter : Int := max 0 (min (e : Int) en - max (s : Int) start)
  let uni : Int := max (e : Int) en - min (s : Int) start
  if uni = 0 then st
  else
    let iou : ℚ := Rat.divInt inter uni
    if st.bestIou < iou then
      { bestIou := iou, bestRange := (s, e), bestIJ := some ij }
    else st

/-- `_aligned_span_from_random` (`_spans_ast.py`, lines 59-112). -/
def _aligned_span_from_random (tree : PyNode) (start en : Nat)
    (ft : List String) : Option (Nat × Nat) :=
  let lca := _find_deepest_containing tree start en
  let children := lca.children.filter
    (fun c => decide (c.startByte < c.endByte))
  if children.isEmpty then some (lca.startByte, lca.endByte)
  else
    let st := (alignedPairs ft children).foldl (alignStep children start en)
      { bestIou := Rat.divInt 0 1, bestRange := (lca.startByte, lca.endByte),
        bestIJ := none }
    match st.bestIJ with
    | none => if ft.isEmpty then some st.bestRange else none
    | some (i, j) =>
      let j2 := _trim_trailing_comments children i j
      some ((children.getD i default).startByte,
        (children.getD j2 default).endByte)

/-- The first child whose type is the language's name node, as the span
name (`_spans_ast.py`, lines 155-159). -/
def nodeNameOf (source : Str) (lc : LanguageConfig) (n : PyNode) : Str :=
  match n.children.find? (fun c => c.type == lc.ast_name_node_type) with
  | some c => pySlice source c.startByte c.endByte
  | none => []

/-- `random.choices(xs, weights, k)`: `k` draws WITH replacement; each draw
is resolved by one oracle value against the cumulative integer weights (the
normalisation of the weights by their total in lines 148-149 cancels out of
the selection). -/
def cumPick : List Nat → Nat → Nat
  | [], _ => 0
  | w :: ws, v => if v < w then 0 else 1 + cumPick ws (v - w)

def pyChoices {α : Type} [Inhabited α] (xs : List α) (ws : List Nat) :
    Nat → Rng → List α × Rng
  | 0, g => ([], g)
  | k + 1, g =>
    let (v, g1) := g.next
    let i := cumPick ws (v % max 1 ws.sum)
    let (rest, g2) := pyChoices xs ws k g1
    (xs.getD i default :: rest, g2)

/-- One pass of the aligned-span loop body (`_spans_ast.py`,
lines 170-197). -/
def alignedIter (source : Str) (root : PyNode) (lc : LanguageConfig)
    (mml : Nat) (g : Rng) : Option CodeSpan × Rng :=
  let (spanLen, g1) := pyRandint 20 (max 21 (source.length / 4)) g
  let maxStart := source.length - spanLen
  if maxStart < 1 then (none, g1)
  else
    let (start, g2) := pyRandint 1 maxStart g1
    let en := start + spanLen
    match _aligned_span_from_random root start en lc.ast_function_types with
    | none => (none, g2)
    | some (s, e) =>
      if e - s < 5 ∨ source.length / 2 < e - s then (none, g2)
      else if 0 < mml ∧ mml < (pySlice source s e).count '\n' + 1 then
        (none, g2)
      else
        (some { kind := "ast_aligned_span",
                startLine := (source.take s).count '\n',
                endLine := (source.take e).count '\n',
                startByte := s, endByte := e }, g2)

def alignedLoop (source : Str) (root : PyNode) (lc : LanguageConfig)
    (mml : Nat) : Nat → Rng → List CodeSpan × Rng
  | 0, g => ([], g)
  | n + 1, g =>
    let (sp?, g1) := alignedIter source root lc mml g
    let (rest, g2) := alignedLoop source root lc mml n g1
    (sp?.toList ++ rest, g2)

/-- `extract_spans_ast` (`_spans_ast.py`, lines 115-199), on the AST path
(`lc.ts_language` present; the absent case is claim C3's subject). -/
def extract_spans_ast (source : Str) (root : PyNode) (lc : LanguageConfig)
    (mml : Nat) (g : Rng) : List CodeSpan × Rng :=
  let targetCount := max 2 (source.length / 500)
  let singleCount := targetCount / 2
  let alignedCount := targetCount - singleCount
  let eligible := _collect_eligible_nodes lc.ast_eligible_types root
  let (singles, g1) :=
    if eligible.isEmpty then (([] : List CodeSpan), g)
    else
      let ws := eligible.map (fun n => max 1 (n.endByte - n.startByte))
      let (chosen, g') :=
        pyChoices eligible ws (min singleCount eligible.length) g
      (chosen.map (fun node =>
        { kind := "ast_single_node",
          startLine := (source.take node.startByte).count '\n',
          endLine := (source.take node.endByte).count '\n',
          name := nodeNameOf source lc node,
          startByte := node.startByte, endByte := node.endByte }), g')
  let (aligneds, g2) := alignedLoop source root lc mml alignedCount g1
  (singles ++ aligneds, g2)

/-! ## C6 support lemmas -/

theorem pyChoices_length {α : Type} [Inhabited α] (xs : List α)
    (ws : List Nat) :
    ∀ (k : Nat) (g : Rng), (pyChoices xs ws k g).1.length = k
  | 0, g => by rw [pyChoices]; rfl
  | k + 1, g => by
    rw [pyChoices]
    rcases hg : g.next with ⟨v, g1⟩
    dsimp only
    rcases hr : pyChoices xs ws k g1 with ⟨rest, g2⟩
    have := pyChoices_length xs ws k g1
    rw [hr] at this
    simpa using this

theorem cumPick_lt : ∀ (ws : List Nat) (v : Nat), v < ws.sum →
    cumPick ws v < ws.length
  | [], v, h => by simp at h
  | w :: ws, v, h => by
    rw [cumPick]
    split
    · simp
    · rename_i hv
      have hrec := cumPick_lt ws (v - w) (by
        simp only [List.sum_cons] at h
        omega)
      simp only [List.length_cons]
      omega

theorem sum_ge_length_of_ones : ∀ (l : List Nat), (∀ x ∈ l, 1 ≤ x) →
    l.length ≤ l.sum
  | [], _ => le_refl _
  | x :: r, h => by
    have hr := sum_ge_length_of_ones r (fun y hy => h y (List.mem_cons_of_mem _ hy))
    have hx := h x (List.mem_cons_self _ _)
    simp only [List.length_cons, List.sum_cons]
    omega

theorem pyChoices_mem {α : Type} [Inhabited α] (xs : List α) (ws : List Nat)
    (hpos : 0 < ws.sum) (hlen : ws.length = xs.length) :
    ∀ (k : Nat) (g : Rng) (y : α), y ∈ (pyChoices xs ws k g).1 → y ∈ xs
  | 0, g, y => by
    rw [pyChoices]
    intro h
    cases h
  | k + 1, g, y => by
    rw [pyChoices]
    rcases hg : g.next with ⟨v, g1⟩
    dsimp only
    rcases hr : pyChoices xs ws k g1 with ⟨rest, g2⟩
    dsimp only
    intro h
    rcases List.mem_cons.mp h with rfl | hmem
    · have hmax : max 1 ws.sum = ws.sum := Nat.max_eq_right hpos
      have hi : cumPick ws (v % max 1 ws.sum) < xs.length := by
        rw [← hlen]
        exact cumPick_lt ws _ (by rw [hmax]; exact Nat.mod_lt _ hpos)
      exact getD_mem _ _ _ hi
    · exact pyChoices_mem xs ws hpos hlen k g1 y (by rw [hr]; exact hmem)

theorem alignedIter_kind (source : Str) (root : PyNode)
    (lc : LanguageConfig) (mml : Nat) (g : Rng) (sp : CodeSpan)
    (h : (alignedIter source root lc mml g).1 = some sp) :
    sp.kind = "ast_aligned_span" := by
  rw [alignedIter] at h
  rcases h1 : pyRandint 20 (max 21 (source.length / 4)) g with ⟨spanLen, g1⟩
  rw [h1] at h
  dsimp only at h
  split at h
  · cases h
  · rcases h2 : pyRandint 1 (source.length - spanLen) g1 with ⟨start, g2⟩
    rw [h2] at h
    dsimp only at h
    split at h
    · cases h
    · rename_i s e _
      split at h
      · cases h
      · split at h
        · cases h
        · injection h with h
          subst h
          rfl

theorem alignedLoop_mem (source : Str) (root : PyNode)
    (lc : LanguageConfig) (mml : Nat) :
    ∀ (n : Nat) (g : Rng) (sp : CodeSpan),
      sp ∈ (alignedLoop source root lc mml n g).1 →
      ∃ g' : Rng, (alignedIter source root lc mml g').1 = some sp
  | 0, g, sp => by
    rw [alignedLoop]
    intro h
    cases h
  | n + 1, g, sp => by
    rw [alignedLoop]
    intro h
    rcases hit : alignedIter source root lc mml g with ⟨sp?, g1⟩
    rw [hit] at h
    dsimp only at h
    rcases hlp : alignedLoop source root lc mml n g1 with ⟨rest, g2⟩
    rw [hlp] at h
    dsimp only at h
    rcases List.mem_append.mp h with h1 | h2
    · cases sp? with
      | none => cases h1
      | some v =>
        rcases List.mem_singleton.mp h1 with rfl
        exact ⟨g, by rw [hit]⟩
    · exact alignedLoop_mem source root lc mml n g1 sp
        (by rw [hlp]; exact h2)

theorem alignedLoop_filter_single (source : Str) (root : PyNode)
    (lc : LanguageConfig) (mml : Nat) (n : Nat) (g : Rng) :
    (alignedLoop source root lc mml n g).1.filter
      (fun sp => sp.kind == "ast_single_node") = [] := by
  rw [List.filter_eq_nil_iff]
  intro sp hsp
  obtain ⟨g', hg'⟩ := alignedLoop_mem source root lc mml n g sp hsp
  have hk := alignedIter_kind source root lc mml g' sp hg'
  rw [hk]
  decide

/-- C6 (amended): in AST single-node masking the emitted `ast_single_node`
spans each copy an eligible node (type in `ast_eligible_types`, byte width
over 5) — range and name included — and their number is exactly
`min(T/2, #eligible)` with `T = max(2, len(source)/500)`; but the draws are
`random.choices`, i.e. WITH replacement, so the chosen nodes need not be
pairwise distinct (`C6_counterexample`). -/
theorem C6_single_node_sampling (source : Str) (root : PyNode)
    (lc : LanguageConfig) (mml : Nat) (g : Rng) :
    (((extract_spans_ast source root lc mml g).1.filter
        (fun sp => sp.kind == "ast_single_node")).length
      = min (max 2 (source.length / 500) / 2)
          (_collect_eligible_nodes lc.ast_eligible_types root).length) ∧
    ∀ sp ∈ (extract_spans_ast source root lc mml g).1,
      sp.kind = "ast_single_node" →
      ∃ n ∈ _collect_eligible_nodes lc.ast_eligible_types root,
        sp.startByte = (n.startByte : Int) ∧
        sp.endByte = (n.endByte : Int) ∧
        sp.name = nodeNameOf source lc n := by
  rw [extract_spans_ast]
  dsimp only
  by_cases he : (_collect_eligible_nodes lc.ast_eligible_types root).isEmpty
  · rw [if_pos he]
    dsimp only
    rcases hal : alignedLoop source root lc mml
        (max 2 (source.length / 500) - max 2 (source.length / 500) / 2) g
      with ⟨aligneds, g2⟩
    dsimp only
    have hlen0 : (_collect_eligible_nodes lc.ast_eligible_types root).length
        = 0 := by
      rw [List.isEmpty_iff] at he
      rw [he]
      rfl
    constructor
    · rw [List.nil_append, hlen0, Nat.min_zero]
      have := alignedLoop_filter_single source root lc mml
        (max 2 (source.length / 500) - max 2 (source.length / 500) / 2) g
      rw [hal] at this
      rw [this]
      rfl
    · intro sp hsp hkind
      rw [List.nil_append] at hsp
      obtain ⟨g', hg'⟩ := alignedLoop_mem source root lc mml _ g sp
        (by rw [hal]; exact hsp)
      have hk := alignedIter_kind source root lc mml g' sp hg'
      rw [hkind] at hk
      exact absurd hk (by decide)
  · rw [if_neg he]
    dsimp only
    rcases hch : pyChoices (_collect_eligible_nodes lc.ast_eligible_types root)
        ((_collect_eligible_nodes lc.ast_eligible_types root).map
          (fun n => max 1 (n.endByte - n.startByte)))
        (min (max 2 (source.length / 500) / 2)
          (_collect_eligible_nodes lc.ast_eligible_types root).length) g
      with ⟨chosen, g1⟩
    dsimp only
    rcases hal : alignedLoop source root lc mml
        (max 2 (source.length / 500) - max 2 (source.length / 500) / 2) g1
      with ⟨aligneds, g2⟩
    dsimp only
    have hpos : 0 < ((_collect_eligible_nodes lc.ast_eligible_types
        root).map (fun n => max 1 (n.endByte - n.startByte))).sum := by
      have h1 := sum_ge_length_of_ones
        ((_collect_eligible_nodes lc.ast_eligible_types root).map
          (fun n => max 1 (n.endByte - n.startByte)))
        (by
          intro x hx
          obtain ⟨n, _, hn⟩ := List.mem_map.mp hx
          rw [← hn]
          exact le_max_left _ _)
      have h2 : 0 < (_collect_eligible_nodes lc.ast_eligible_types
          root).length := by
        rw [List.length_pos]
        intro hnil
        rw [hnil] at he
        exact he rfl
      rw [List.length_map] at h1
      omega
    have hmlen : ((_collect_eligible_nodes lc.ast_eligible_types root).map
        (fun n => max 1 (n.endByte - n.startByte))).length
        = (_collect_eligible_nodes lc.ast_eligible_types root).length :=
      List.length_map _ _
    constructor
    · rw [List.filter_append]
      have hfa := alignedLoop_filter_single source root lc mml
        (max 2 (source.length / 500) - max 2 (source.length / 500) / 2) g1
      rw [hal] at hfa
      rw [hfa, List.append_nil]
      have hfs : (chosen.map (fun node =>
          ({ kind := "ast_single_node",
             startLine := (source.take node.startByte).count '\n',
             endLine := (source.take node.endByte).count '\n',
             name := nodeNameOf source lc node,
             startByte := node.startByte,
             endByte := node.endByte } : CodeSpan))).filter
          (fun sp => sp.kind == "ast_single_node")
          = chosen.map (fun node =>
          ({ kind := "ast_single_node",
             startLine := (source.take node.startByte).count '\n',
             endLine := (source.take node.endByte).count '\n',
             name := nodeNameOf source lc node,
             startByte := node.startByte,
             endByte := node.endByte } : CodeSpan)) := by
        rw [List.filter_eq_self]
        intro sp hsp
        obtain ⟨n, _, hn⟩ := List.mem_map.mp hsp
        rw [← hn]
        show (("ast_single_node" : String) == "ast_single_node") = true
        decide
      rw [hfs, List.length_map]
      have hcl := pyChoices_length
        (_collect_eligible_nodes lc.ast_eligible_types root)
        ((_collect_eligible_nodes lc.ast_eligible_types root).map
          (fun n => max 1 (n.endByte - n.startByte)))
        (min (max 2 (source.length / 500) / 2)
          (_collect_eligible_nodes lc.ast_eligible_types root).length) g
      rw [hch] at hcl
      exact hcl
    · intro sp hsp hkind
      rcases List.mem_append.mp hsp with hm | hm
      · obtain ⟨n, hn, hf⟩ := List.mem_map.mp hm
        have hnel : n ∈ _collect_eligible_nodes lc.ast_eligible_types root :=
          pyChoices_mem _ _ hpos hmlen _ g n (by rw [hch]; exact hn)
        refine ⟨n, hnel, ?_⟩
        rw [← hf]
        exact ⟨rfl, rfl, rfl⟩
      · obtain ⟨g', hg'⟩ := alignedLoop_mem source root lc mml _ g1 sp
          (by rw [hal]; exact hm)
        have hk := alignedIter_kind source root lc mml g' sp hg'
        rw [hkind] at hk
        exact absurd hk (by decide)

def c6Source : Str := List.replicate 2000 'a'

def c6N0 : PyNode := .node "expression_statement" 0 10 []

def c6N1 : PyNode := .node "expression_statement" 10 20 []

def c6Tree : PyNode := .node "module" 0 2000 [c6N0, c6N1]

def c6Lc : LanguageConfig :=
  { ast_eligible_types := ["expression_statement"] }

def c6Span : CodeSpan :=
  { kind := "ast_single_node", startLine := 0, endLine := 0,
    name := [], startByte := 0, endByte := 10 }

def c6SpanA : CodeSpan :=
  { kind := "ast_aligned_span", startLine := 0, endLine := 0,
    startByte := 0, endByte := 20 }

/-- C6 counterexample: a 2000-byte source gives `T = 4` and `T/2 = 2` draws
over two eligible `expression_statement` nodes; `random.choices` draws WITH
replacement, and the all-zero oracle picks the first node twice, so the two
emitted `ast_single_node` spans reference the same node — the claimed
without-replacement (pairwise-distinct) sampling is violated. -/
theorem C6_counterexample :
    ((extract_spans_ast c6Source c6Tree c6Lc 0 ⟨[]⟩).1.filter
        (fun sp => sp.kind == "ast_single_node"))
      = [c6Span, c6Span] := by
  have hlen : c6Source.length = 2000 := by simp [c6Source]
  have helig : _collect_eligible_nodes c6Lc.ast_eligible_types c6Tree
      = [c6N0, c6N1] := rfl
  have hch : pyChoices [c6N0, c6N1]
      ([c6N0, c6N1].map (fun n => max 1 (n.endByte - n.startByte)))
      (min (max 2 (2000 / 500) / 2) [c6N0, c6N1].length) ⟨[]⟩
      = ([c6N0, c6N0], ⟨[]⟩) := rfl
  have hiter : alignedIter c6Source c6Tree c6Lc 0 ⟨[]⟩
      = (some c6SpanA, ⟨[]⟩) := by
    rw [alignedIter]
    dsimp only
    rw [hlen]
    decide
  have h0 : alignedLoop c6Source c6Tree c6Lc 0 0 ⟨[]⟩ = ([], ⟨[]⟩) := by
    rw [alignedLoop]
  have h1 : alignedLoop c6Source c6Tree c6Lc 0 1 ⟨[]⟩
      = ([c6SpanA], ⟨[]⟩) := by
    rw [show (1 : Nat) = 0 + 1 from rfl, alignedLoop, hiter]
    dsimp only
    rw [h0]
    rfl
  have hloop : alignedLoop c6Source c6Tree c6Lc 0
      (max 2 (2000 / 500) - max 2 (2000 / 500) / 2) ⟨[]⟩
      = ([c6SpanA, c6SpanA], ⟨[]⟩) := by
    rw [show max 2 (2000 / 500) - max 2 (2000 / 500) / 2 = 1 + 1 by norm_num]
    rw [alignedLoop, hiter]
    dsimp only
    rw [h1]
    rfl
  rw [extract_spans_ast]
  dsimp only
  rw [hlen, helig, hch]
  rw [if_neg (by decide : ¬([c6N0, c6N1].isEmpty = true))]
  dsimp only
  rw [hloop]
  rfl

/-! ## C7: function-count bounds for aligned spans -/

mutual
/-- Number of function-type nodes of the subtree lying strictly within
`[s, e)`: contained in the span but not equal to it. -/
def fnStrictCount (ft : List String) (s e : Nat) : PyNode → Nat
  | .node ty ns ne cs =>
    (if ft.contains ty ∧ s ≤ ns ∧ ne ≤ e ∧ ¬(ns = s ∧ ne = e) then 1 else 0)
      + fnStrictCountList ft s e cs
def fnStrictCountList (ft : List String) (s e : Nat) : List PyNode → Nat
  | [] => 0
  | c :: r => fnStrictCount ft s e c + fnStrictCountList ft s e r
end

mutual
/-- Number of function-type nodes of the subtree whose byte range meets
`[s, e)`. -/
def fnOverlapCount (ft : List String) (s e : Nat) : PyNode → Nat
  | .node ty ns ne cs =>
    (if ft.contains ty ∧ max s ns < min e ne then 1 else 0)
      + fnOverlapCountList ft s e cs
def fnOverlapCountList (ft : List String) (s e : Nat) : List PyNode → Nat
  | [] => 0
  | c :: r => fnOverlapCount ft s e c + fnOverlapCountList ft s e r
end

mutual
theorem fnStrict_le_countFn (ft : List String) (s e : Nat) :
    ∀ t : PyNode, fnStrictCount ft s e t ≤ _count_functions_in_node ft t
  | .node ty ns ne cs => by
    rw [fnStrictCount, _count_functions_in_node]
    have h1 := fnStrictList_le_countFnList ft s e cs
    have h2 : (if ft.contains ty ∧ s ≤ ns ∧ ne ≤ e ∧ ¬(ns = s ∧ ne = e)
        then 1 else 0) ≤ (if ft.contains ty then 1 else 0) := by
      split
      · rename_i hc
        rw [if_pos hc.1]
      · exact Nat.zero_le _
    omega
theorem fnStrictList_le_countFnList (ft : List String) (s e : Nat) :
    ∀ cs : List PyNode, fnStrictCountList ft s e cs ≤ countFnList ft cs
  | [] => le_refl _
  | c :: r => by
    rw [fnStrictCountList, countFnList]
    have h1 := fnStrict_le_countFn ft s e c
    have h2 := fnStrictList_le_countFnList ft s e r
    omega
end

mutual
theorem countFn_nil : ∀ t : PyNode, _count_functions_in_node [] t = 0
  | .node ty ns ne cs => by
    rw [_count_functions_in_node]
    have h1 := countFnList_nil cs
    have h2 : (if ([] : List String).contains ty = true then 1 else 0) = 0 := by
      rw [if_neg]
      simp
    omega
theorem countFnList_nil : ∀ cs : List PyNode, countFnList [] cs = 0
  | [] => rfl
  | c :: r => by
    rw [countFnList]
    have h1 := countFn_nil c
    have h2 := countFnList_nil r
    omega
end

mutual
/-- A subtree whose range misses `[s, e)` (or is empty) holds no strictly
contained positive-width node, so no function node under the positive-width
hypothesis. -/
theorem fnStrict_zero (ft : List String) (s e : Nat) :
    ∀ t : PyNode, t.wfB = true →
      (∀ m ∈ t.nodes, ft.contains m.type = true →
        m.startByte < m.endByte) →
      min e t.endByte ≤ max s t.startByte →
      fnStrictCount ft s e t = 0
  | .node ty ns ne cs => by
    intro hwf hpos hmiss
    rw [fnStrictCount]
    obtain ⟨hse, hall, _⟩ := wfB_parts hwf
    have hself : (if ft.contains ty ∧ s ≤ ns ∧ ne ≤ e ∧
        ¬(ns = s ∧ ne = e) then 1 else 0) = 0 := by
      rw [if_neg]
      intro hc
      have hp := hpos (.node ty ns ne cs) (self_mem_nodes _) hc.1
      simp only [PyNode.startByte, PyNode.endByte] at hp hmiss
      simp only [PyNode.startByte, PyNode.endByte] at hse
      obtain ⟨_, h2, h3, _⟩ := hc
      omega
    rw [hself]
    have hlist := fnStrictList_zero ft s e cs ns ne hall
      (fun m hm hft => hpos m (by
        rw [PyNode.nodes]
        exact List.mem_cons_of_mem _ hm) hft)
      (by
        simp only [PyNode.startByte, PyNode.endByte] at hmiss
        exact hmiss)
    omega
theorem fnStrictList_zero (ft : List String) (s e : Nat) :
    ∀ (cs : List PyNode) (ps pe : Nat), wfAll ps pe cs = true →
      (∀ m ∈ nodesList cs, ft.contains m.type = true →
        m.startByte < m.endByte) →
      min e pe ≤ max s ps →
      fnStrictCountList ft s e cs = 0
  | [], _, _ => by
    intro _ _ _
    rfl
  | c :: r, ps, pe => by
    intro hall hpos hmiss
    rw [fnStrictCountList]
    rw [wfAll] at hall
    simp only [Bool.and_eq_true, decide_eq_true_eq] at hall
    obtain ⟨⟨⟨h1, h2⟩, h3⟩, h4⟩ := hall
    have hc := fnStrict_zero ft s e c h3
      (fun m hm hft => hpos m (by
        rw [nodesList]
        exact List.mem_append_left _ hm) hft)
      (by omega)
    have hr := fnStrictList_zero ft s e r ps pe h4
      (fun m hm hft => hpos m (by
        rw [nodesList]
        exact List.mem_append_right _ hm) hft)
      hmiss
    omega
end

theorem trim_le (children : List PyNode) (i : Nat) :
    ∀ j : Nat, _trim_trailing_comments children i j ≤ j
  | 0 => le_refl _
  | j + 1 => by
    rw [_trim_trailing_comments]
    split
    · exact le_trans (trim_le children i j) (Nat.le_succ _)
    · exact le_refl _

theorem le_trim (children : List PyNode) (i : Nat) :
    ∀ j : Nat, i ≤ j → i ≤ _trim_trailing_comments children i j
  | 0, h => h
  | j + 1, h => by
    rw [_trim_trailing_comments]
    split
    · rename_i hc
      exact le_trim children i j (by omega)
    · exact h

theorem alignStep_some_stays (children : List PyNode) (start en : Nat) :
    ∀ (pairs : List (Nat × Nat)) (st : AlignState),
      st.bestIJ.isSome = true →
      ((pairs.foldl (alignStep children start en) st).bestIJ).isSome = true
  | [], st, h => h
  | p :: rest, st, h => by
    rw [List.foldl_cons]
    refine alignStep_some_stays children start en rest _ ?_
    rw [alignStep]
    dsimp only
    split
    · exact h
    · split
      · rfl
      · exact h

theorem foldl_bestIJ_mem (children : List PyNode) (start en : Nat) :
    ∀ (pairs : List (Nat × Nat)) (st : AlignState) (ij : Nat × Nat),
      (pairs.foldl (alignStep children start en) st).bestIJ = some ij →
      ij ∈ pairs ∨ st.bestIJ = some ij
  | [], st, ij => fun h => Or.inr h
  | p :: rest, st, ij => by
    intro h
    rw [List.foldl_cons] at h
    rcases foldl_bestIJ_mem children start en rest _ ij h with hm | hst
    · exact Or.inl (List.mem_cons_of_mem _ hm)
    · rw [alignStep] at hst
      dsimp only at hst
      split at hst
      · exact Or.inr hst
      · split at hst
        · injection hst with hst
          exact Or.inl (by rw [← hst]; exact List.mem_cons_self _ _)
        · exact Or.inr hst

theorem foldl_none_range (children : List PyNode) (start en : Nat) :
    ∀ (pairs : List (Nat × Nat)) (st : AlignState),
      (pairs.foldl (alignStep children start en) st).bestIJ = none →
      (pairs.foldl (alignStep children start en) st).bestRange
        = st.bestRange := by
  intro pairs
  induction pairs with
  | nil => intro st _; rfl
  | cons p rest ih =>
    intro st h
    rw [List.foldl_cons] at h ⊢
    have hstep : alignStep children start en st p = st ∨
        (alignStep children start en st p).bestIJ = some p := by
      rw [alignStep]
      dsimp only
      split
      · exact Or.inl rfl
      · split
        · exact Or.inr rfl
        · exact Or.inl rfl
    rcases hstep with hstep | hstep
    · rw [hstep] at h ⊢
      exact ih st h
    · have hsome := alignStep_some_stays children start en rest
        (alignStep children start en st p) (by rw [hstep]; rfl)
      rw [h] at hsome
      cases hsome

mutual
theorem nodes_trans : ∀ (t m k : PyNode), m ∈ t.nodes → k ∈ m.nodes →
    k ∈ t.nodes
  | .node ty s e cs, m, k => by
    intro hm hk
    rw [PyNode.nodes] at hm ⊢
    rcases List.mem_cons.mp hm with rfl | hm'
    · rw [PyNode.nodes] at hk
      exact hk
    · exact List.mem_cons_of_mem _ (nodesList_trans cs m k hm' hk)
theorem nodesList_trans : ∀ (cs : List PyNode) (m k : PyNode),
    m ∈ nodesList cs → k ∈ m.nodes → k ∈ nodesList cs
  | [], m, k => by
    intro hm _
    rw [nodesList] at hm
    cases hm
  | c :: r, m, k => by
    intro hm hk
    rw [nodesList] at hm ⊢
    rcases List.mem_append.mp hm with hm' | hm'
    · exact List.mem_append_left _ (nodes_trans c m k hm' hk)
    · exact List.mem_append_right _ (nodesList_trans r m k hm' hk)
end

theorem mem_nodesList_elim : ∀ (cs : List PyNode) (m : PyNode),
    m ∈ nodesList cs → ∃ c ∈ cs, m ∈ c.nodes
  | [], m => by
    intro hm
    rw [nodesList] at hm
    cases hm
  | c :: r, m => by
    intro hm
    rw [nodesList] at hm
    rcases List.mem_append.mp hm with hm' | hm'
    · exact ⟨c, List.mem_cons_self _ _, hm'⟩
    · obtain ⟨c2, hc2, hmc⟩ := mem_nodesList_elim r m hm'
      exact ⟨c2, List.mem_cons_of_mem _ hc2, hmc⟩

theorem nodesOrdered_pairwiseP :
    ∀ cs : List PyNode, nodesOrdered cs = true →
      (∀ c ∈ cs, c.startByte ≤ c.endByte) →
      cs.Pairwise (fun a b => a.endByte ≤ b.startByte)
  | [], _, _ => List.Pairwise.nil
  | [a], _, _ => by
    refine List.pairwise_cons.mpr ⟨?_, List.Pairwise.nil⟩
    intro b hb
    cases hb
  | a :: b :: r, hord, hwf => by
    have hord' : nodesOrdered (b :: r) = true := nodesOrdered_tail hord
    have hab : a.endByte ≤ b.startByte := by
      rw [nodesOrdered] at hord
      simp only [Bool.and_eq_true, decide_eq_true_eq] at hord
      exact hord.1
    have hrest := nodesOrdered_pairwiseP (b :: r) hord'
      (fun c hc => hwf c (List.mem_cons_of_mem _ hc))
    refine List.pairwise_cons.mpr ⟨?_, hrest⟩
    intro c hc
    rcases List.mem_cons.mp hc with rfl | hc'
    · exact hab
    · have hbc : b.endByte ≤ c.startByte := by
        rcases List.pairwise_cons.mp hrest with ⟨hb, _⟩
        exact hb c hc'
      have hbwf := hwf b (List.mem_cons_of_mem _ (List.mem_cons_self _ _))
      omega

theorem mem_drop_range {n i j : Nat} (h : j ∈ (List.range n).drop i) :
    i ≤ j ∧ j < n := by
  obtain ⟨k, hk, hget⟩ := List.getElem_of_mem h
  rw [List.getElem_drop] at hget
  rw [List.length_drop, List.length_range] at hk
  rw [List.getElem_range] at hget
  omega

theorem alignedPairs_mem (ft : List String) (children : List PyNode)
    (i j : Nat) (h : (i, j) ∈ alignedPairs ft children) :
    i ≤ j ∧ j < children.length ∧ fnRangeCount ft children i j ≤ 1 := by
  rw [alignedPairs] at h
  obtain ⟨i2, hi2, hmem⟩ := List.mem_flatMap.mp h
  obtain ⟨j2, hj2, heq⟩ := List.mem_map.mp hmem
  injection heq with h1 h2
  rw [h1, h2] at hj2
  rw [alignedCandJs] at hj2
  split at hj2
  · rename_i hemp
    obtain ⟨hij, hjn⟩ := mem_drop_range hj2
    refine ⟨hij, hjn, ?_⟩
    rw [List.isEmpty_iff] at hemp
    subst hemp
    rw [fnRangeCount, countFnList_nil]
    omega
  · have hsub : j ∈ (List.range children.length).drop i :=
      (List.takeWhile_sublist _).subset hj2
    obtain ⟨hij, hjn⟩ := mem_drop_range hsub
    have hp := List.mem_takeWhile_imp hj2
    simp only [decide_eq_true_eq] at hp
    exact ⟨hij, hjn, hp⟩

theorem countFnList_take_le (ft : List String) :
    ∀ (l : List PyNode) (a : Nat),
      countFnList ft (l.take a) ≤ countFnList ft l
  | [], a => by
    rw [List.take_nil]
  | l, 0 => by
    rw [List.take_zero]
    exact Nat.zero_le _
  | x :: xs, a + 1 => by
    rw [List.take_succ_cons, countFnList, countFnList]
    have := countFnList_take_le ft xs a
    omega

theorem fnRangeCount_mono (ft : List String) (children : List PyNode)
    (i j2 j : Nat) (h : j2 ≤ j) :
    fnRangeCount ft children i j2 ≤ fnRangeCount ft children i j := by
  rw [fnRangeCount, fnRangeCount]
  have heq : (children.drop i).take (j2 + 1 - i)
      = ((children.drop i).take (j + 1 - i)).take (j2 + 1 - i) := by
    rw [List.take_take]
    rw [Nat.min_eq_left (by omega)]
  rw [heq]
  exact countFnList_take_le ft _ _

theorem fnStrictCountList_eq_sum (ft : List String) (s e : Nat) :
    ∀ cs : List PyNode,
      fnStrictCountList ft s e cs = (cs.map (fnStrictCount ft s e)).sum
  | [] => rfl
  | c :: r => by
    rw [fnStrictCountList, List.map_cons, List.sum_cons,
      fnStrictCountList_eq_sum ft s e r]

theorem countFnList_eq_sum (ft : List String) :
    ∀ cs : List PyNode,
      countFnList ft cs = (cs.map (_count_functions_in_node ft)).sum
  | [] => rfl
  | c :: r => by
    rw [countFnList, List.map_cons, List.sum_cons, countFnList_eq_sum ft r]

theorem fnStrictList_zero_of_each (ft : List String) (s e : Nat) :
    ∀ cs : List PyNode, (∀ c ∈ cs, fnStrictCount ft s e c = 0) →
      fnStrictCountList ft s e cs = 0
  | [], _ => rfl
  | c :: r, h => by
    rw [fnStrictCountList]
    rw [h c (List.mem_cons_self _ _),
      fnStrictList_zero_of_each ft s e r
        (fun x hx => h x (List.mem_cons_of_mem _ hx))]

mutual
/-- Descending to the deepest node containing the probe window never loses
strictly-contained function nodes, provided the final span `[s, e)` lies
within that node's range. -/
theorem fnStrict_fdc_le (ft : List String) :
    ∀ (t : PyNode) (a b s e : Nat),
      t.wfB = true →
      (∀ m ∈ t.nodes, ft.contains m.type = true →
        m.startByte < m.endByte) →
      (_find_deepest_containing t a b).startByte ≤ s →
      e ≤ (_find_deepest_containing t a b).endByte →
      fnStrictCount ft s e t
        ≤ fnStrictCount ft s e (_find_deepest_containing t a b)
  | .node ty ts te cs, a, b, s, e => by
    intro hwf hpos hs he
    cases hf : fdcList cs a b with
    | none =>
      have hfd : _find_deepest_containing (.node ty ts te cs) a b
          = .node ty ts te cs := by
        rw [_find_deepest_containing, hf]
      rw [hfd]
    | some r =>
      have hfd : _find_deepest_containing (.node ty ts te cs) a b = r := by
        rw [_find_deepest_containing, hf]
      rw [hfd] at hs he
      rw [hfd]
      obtain ⟨hse, hall, hord⟩ := wfB_parts hwf
      simp only [PyNode.startByte, PyNode.endByte, PyNode.children]
        at hse hall hord
      have hposl : ∀ m ∈ nodesList cs, ft.contains m.type = true →
          m.startByte < m.endByte :=
        fun m hm hft => hpos m (by
          rw [PyNode.nodes]
          exact List.mem_cons_of_mem _ hm) hft
      have hpw : cs.Pairwise (fun x y => x.endByte ≤ y.startByte) :=
        nodesOrdered_pairwiseP cs hord
          (fun c hc => (wfB_parts (wfAll_mem hall hc).2.2).1)
      have hlist := fnStrict_fdcList_le ft cs a b s e r ts te hf hall hpw
        hposl hs he
      have hrn := nodesList_range cs ts te hall r (fdcList_mem cs a b r hf)
      rw [fnStrictCount]
      have hself : (if ft.contains ty ∧ s ≤ ts ∧ te ≤ e ∧
          ¬(ts = s ∧ te = e) then 1 else 0) = 0 := by
        rw [if_neg]
        intro hc
        obtain ⟨_, h2, h3, h4⟩ := hc
        exact h4 (by omega)
      omega
theorem fnStrict_fdcList_le (ft : List String) :
    ∀ (cs : List PyNode) (a b s e : Nat) (r : PyNode) (ps pe : Nat),
      fdcList cs a b = some r →
      wfAll ps pe cs = true →
      cs.Pairwise (fun x y => x.endByte ≤ y.startByte) →
      (∀ m ∈ nodesList cs, ft.contains m.type = true →
        m.startByte < m.endByte) →
      r.startByte ≤ s → e ≤ r.endByte →
      fnStrictCountList ft s e cs ≤ fnStrictCount ft s e r
  | [], a, b, s, e, r, ps, pe => by
    intro hf _ _ _ _ _
    rw [fdcList] at hf
    cases hf
  | c :: rest, a, b, s, e, r, ps, pe => by
    intro hf hall hpw hposl hs he
    rw [fdcList] at hf
    rw [wfAll] at hall
    simp only [Bool.and_eq_true, decide_eq_true_eq] at hall
    obtain ⟨⟨⟨hps, hpe⟩, hcwf⟩, hallr⟩ := hall
    obtain ⟨hhead, hpwr⟩ := List.pairwise_cons.mp hpw
    have hposc : ∀ m ∈ c.nodes, ft.contains m.type = true →
        m.startByte < m.endByte :=
      fun m hm hft => hposl m (by
        rw [nodesList]
        exact List.mem_append_left _ hm) hft
    have hposr : ∀ m ∈ nodesList rest, ft.contains m.type = true →
        m.startByte < m.endByte :=
      fun m hm hft => hposl m (by
        rw [nodesList]
        exact List.mem_append_right _ hm) hft
    rw [fnStrictCountList]
    split at hf
    · rename_i hcond
      simp only [Bool.and_eq_true, decide_eq_true_eq] at hcond
      injection hf with hf
      have hrc := nodes_range c hcwf _ (fd_mem c a b)
      have hc_le : fnStrictCount ft s e c
          ≤ fnStrictCount ft s e (_find_deepest_containing c a b) :=
        fnStrict_fdc_le ft c a b s e hcwf hposc
          (by rw [hf]; exact hs) (by rw [hf]; exact he)
      have hrest0 : fnStrictCountList ft s e rest = 0 := by
        refine fnStrictList_zero_of_each ft s e rest ?_
        intro x hx
        have hxwf := (wfAll_mem hallr hx).2.2
        have hcx := hhead x hx
        have hre : e ≤ c.endByte := by
          rw [hf] at hrc
          omega
        refine fnStrict_zero ft s e x hxwf
          (fun m hm hft => hposr m (mem_nodesList_of_mem hx hm) hft) ?_
        omega
      rw [hf] at hc_le
      omega
    · have hr_mem := fdcList_mem rest a b r hf
      obtain ⟨c2, hc2, hrc2⟩ := mem_nodesList_elim rest r hr_mem
      have hc2wf := (wfAll_mem hallr hc2).2.2
      have hrr := nodes_range c2 hc2wf r hrc2
      have hcc2 := hhead c2 hc2
      have hc0 : fnStrictCount ft s e c = 0 := by
        refine fnStrict_zero ft s e c hcwf hposc ?_
        omega
      have hrec := fnStrict_fdcList_le ft rest a b s e r ps pe hf hallr
        hpwr hposr hs he
      omega
end

/-- Summing the strictly-contained function counts over an ordered child
list: children left of `i` and right of `j2` contribute nothing, the middle
is bounded by the plain function count of `children[i..j2]`. -/
theorem strict_sum_segment (ft : List String) (s e : Nat) :
    ∀ (fl : List PyNode) (i j2 : Nat),
      (∀ c ∈ fl, c.wfB = true) →
      (∀ c ∈ fl, ∀ m ∈ c.nodes, ft.contains m.type = true →
        m.startByte < m.endByte) →
      i ≤ j2 →
      (∀ k, k < i → ∀ hk : k < fl.length, fl[k].endByte ≤ s) →
      (∀ k, j2 < k → ∀ hk : k < fl.length, e ≤ fl[k].startByte) →
      (fl.map (fnStrictCount ft s e)).sum ≤ fnRangeCount ft fl i j2
  | [], i, j2 => by
    intro _ _ _ _ _
    exact Nat.zero_le _
  | x :: rest, 0, 0 => by
    intro hwfl hposl _ hA hC
    rw [List.map_cons, List.sum_cons]
    have hx := fnStrict_le_countFn ft s e x
    have hrest : (rest.map (fnStrictCount ft s e)).sum = 0 := by
      refine List.sum_eq_zero ?_
      intro y hy
      obtain ⟨c, hc, hfc⟩ := List.mem_map.mp hy
      rw [← hfc]
      obtain ⟨k, hk, hgk⟩ := List.getElem_of_mem hc
      have hCk := hC (k + 1) (Nat.succ_pos _)
        (by simpa using Nat.succ_lt_succ hk)
      rw [List.getElem_cons_succ, hgk] at hCk
      refine fnStrict_zero ft s e c (hwfl c (List.mem_cons_of_mem _ hc))
        (hposl c (List.mem_cons_of_mem _ hc)) ?_
      exact le_trans (min_le_left _ _)
        (le_trans hCk (le_max_right _ _))
    have hrhs : fnRangeCount ft (x :: rest) 0 0
        = _count_functions_in_node ft x := by
      rw [fnRangeCount, List.drop_zero]
      rw [show (0 + 1 : Nat) = 1 from rfl]
      rw [show (x :: rest).take 1 = [x] by rw [List.take_succ_cons, List.take_zero]]
      rw [countFnList, countFnList]
      omega
    rw [hrhs]
    omega
  | x :: rest, 0, jj + 1 => by
    intro hwfl hposl _ hA hC
    rw [List.map_cons, List.sum_cons]
    have hx := fnStrict_le_countFn ft s e x
    have hIH := strict_sum_segment ft s e rest 0 jj
      (fun c hc => hwfl c (List.mem_cons_of_mem _ hc))
      (fun c hc => hposl c (List.mem_cons_of_mem _ hc))
      (Nat.zero_le _)
      (fun k hk _ => absurd hk (Nat.not_lt_zero _))
      (fun k hk hkl => by
        have hCk := hC (k + 1) (Nat.succ_lt_succ hk)
          (by simpa using Nat.succ_lt_succ hkl)
        rw [List.getElem_cons_succ] at hCk
        exact hCk)
    have hrhs : fnRangeCount ft (x :: rest) 0 (jj + 1)
        = _count_functions_in_node ft x + fnRangeCount ft rest 0 jj := by
      rw [fnRangeCount, fnRangeCount, List.drop_zero, List.drop_zero]
      rw [Nat.sub_zero, Nat.sub_zero]
      rw [List.take_succ_cons, countFnList]
    rw [hrhs]
    omega
  | x :: rest, ii + 1, j2 => by
    intro hwfl hposl hij hA hC
    cases j2 with
    | zero => omega
    | succ jj =>
      rw [List.map_cons, List.sum_cons]
      have hx0 : fnStrictCount ft s e x = 0 := by
        have hAx := hA 0 (Nat.succ_pos _) (Nat.succ_pos _)
        rw [List.getElem_cons_zero] at hAx
        refine fnStrict_zero ft s e x
          (hwfl x (List.mem_cons_self _ _))
          (hposl x (List.mem_cons_self _ _)) ?_
        exact le_trans (min_le_right _ _)
          (le_trans hAx (le_max_left _ _))
      have hIH := strict_sum_segment ft s e rest ii jj
        (fun c hc => hwfl c (List.mem_cons_of_mem _ hc))
        (fun c hc => hposl c (List.mem_cons_of_mem _ hc))
        (by omega)
        (fun k hk hkl => by
          have hAk := hA (k + 1) (Nat.succ_lt_succ hk)
            (by simpa using Nat.succ_lt_succ hkl)
          rw [List.getElem_cons_succ] at hAk
          exact hAk)
        (fun k hk hkl => by
          have hCk := hC (k + 1) (Nat.succ_lt_succ hk)
            (by simpa using Nat.succ_lt_succ hkl)
          rw [List.getElem_cons_succ] at hCk
          exact hCk)
      have hrhs : fnRangeCount ft (x :: rest) (ii + 1) (jj + 1)
          = fnRangeCount ft rest ii jj := by
        rw [fnRangeCount, fnRangeCount, List.drop_succ_cons]
        rw [show jj + 1 + 1 - (ii + 1) = jj + 1 - ii from by omega]
      rw [hrhs, hx0]
      omega

theorem map_sum_filter_zero (p : PyNode → Bool) (f : PyNode → Nat) :
    ∀ cs : List PyNode, (∀ c ∈ cs, p c = false → f c = 0) →
      (cs.map f).sum = ((cs.filter p).map f).sum
  | [], _ => rfl
  | c :: r, h => by
    rw [List.map_cons, List.sum_cons, List.filter_cons]
    have hr := map_sum_filter_zero p f r
      (fun x hx => h x (List.mem_cons_of_mem _ hx))
    cases hp : p c with
    | true =>
      rw [if_pos rfl, List.map_cons, List.sum_cons, hr]
    | false =>
      rw [if_neg (by simp), h c (List.mem_cons_self _ _) hp, hr]
      omega

theorem fnStrictCount_node (ft : List String) (s e : Nat) (ty : String)
    (ts te : Nat) (cs : List PyNode)
    (hno : ¬(s ≤ ts ∧ te ≤ e ∧ ¬(ts = s ∧ te = e))) :
    fnStrictCount ft s e (.node ty ts te cs)
      = fnStrictCountList ft s e cs := by
  rw [fnStrictCount]
  rw [if_neg (fun hc => hno ⟨hc.2.1, hc.2.2.1, hc.2.2.2⟩)]
  omega

theorem fnStrict_lca_le (ft : List String) (ty : String) (ts te : Nat)
    (cs : List PyNode)
    (hwf : (PyNode.node ty ts te cs).wfB = true)
    (hpos : ∀ m ∈ (PyNode.node ty ts te cs).nodes,
      ft.contains m.type = true → m.startByte < m.endByte)
    (i j2 : Nat) (hij : i ≤ j2)
    (hj : j2 < (cs.filter
      (fun c => decide (c.startByte < c.endByte))).length) :
    fnStrictCount ft
        (((cs.filter (fun c => decide (c.startByte < c.endByte))).getD
            i default).startByte)
        (((cs.filter (fun c => decide (c.startByte < c.endByte))).getD
            j2 default).endByte) (.node ty ts te cs)
      ≤ fnRangeCount ft (cs.filter
          (fun c => decide (c.startByte < c.endByte))) i j2 := by
  obtain ⟨hse, hall, hord⟩ := wfB_parts hwf
  simp only [PyNode.startByte, PyNode.endByte, PyNode.children]
    at hse hall hord
  have hi : i < (cs.filter
      (fun c => decide (c.startByte < c.endByte))).length :=
    lt_of_le_of_lt hij hj
  have hfi : (cs.filter (fun c => decide (c.startByte < c.endByte))).getD
      i default
      = (cs.filter (fun c => decide (c.startByte < c.endByte)))[i] := by
    rw [List.getD_eq_getElem?_getD, List.getElem?_eq_getElem hi]
    rfl
  have hfj : (cs.filter (fun c => decide (c.startByte < c.endByte))).getD
      j2 default
      = (cs.filter (fun c => decide (c.startByte < c.endByte)))[j2] := by
    rw [List.getD_eq_getElem?_getD, List.getElem?_eq_getElem hj]
    rfl
  have hmemi := List.mem_of_mem_filter (List.getElem_mem hi)
  have hmemj := List.mem_of_mem_filter (List.getElem_mem hj)
  have hri := wfAll_mem hall hmemi
  have hrj := wfAll_mem hall hmemj
  have hpw : (cs.filter
      (fun c => decide (c.startByte < c.endByte))).Pairwise
      (fun x y => x.endByte ≤ y.startByte) :=
    (nodesOrdered_pairwiseP cs hord
      (fun c hc => (wfB_parts (wfAll_mem hall hc).2.2).1)).filter _
  have hpg := List.pairwise_iff_getElem.mp hpw
  rw [hfi, hfj]
  rw [fnStrictCount_node ft _ _ ty ts te cs (by
    intro hc
    obtain ⟨h2, h3, h4⟩ := hc
    exact h4 ⟨by omega, by omega⟩)]
  rw [fnStrictCountList_eq_sum]
  rw [map_sum_filter_zero (fun c => decide (c.startByte < c.endByte)) _ cs
    (by
      intro c hc hpc
      simp only [decide_eq_false_iff_not, Nat.not_lt] at hpc
      have hcw := wfAll_mem hall hc
      have hcle := (wfB_parts hcw.2.2).1
      refine fnStrict_zero ft _ _ c hcw.2.2
        (fun m hm hft => hpos m (by
          rw [PyNode.nodes]
          exact List.mem_cons_of_mem _ (mem_nodesList_of_mem hc hm)) hft) ?_
      exact le_trans (min_le_right _ _)
        (le_trans hpc (le_max_right _ _)))]
  refine strict_sum_segment ft _ _
    (cs.filter (fun c => decide (c.startByte < c.endByte))) i j2
    (fun c hc => (wfAll_mem hall (List.mem_of_mem_filter hc)).2.2)
    (fun c hc m hm hft => hpos m (by
      rw [PyNode.nodes]
      exact List.mem_cons_of_mem _
        (mem_nodesList_of_mem (List.mem_of_mem_filter hc) hm)) hft)
    hij
    (fun k hk hkl => hpg k i hkl hi hk)
    (fun k hk hkl => hpg j2 k hj hkl hk)

/-- Any range returned by `_aligned_span_from_random` contains at most one
function-type node strictly inside it (contained but not equal), for a
well-formed tree whose function nodes have positive width. -/
theorem aligned_span_fn_bound (root : PyNode) (ft : List String)
    (start en s e : Nat)
    (hwf : root.wfB = true)
    (hpos : ∀ m ∈ root.nodes, ft.contains m.type = true →
      m.startByte < m.endByte)
    (h : _aligned_span_from_random root start en ft = some (s, e)) :
    fnStrictCount ft s e root ≤ 1 := by
  have hlmem := fd_mem root start en
  have hlr := nodes_range root hwf _ hlmem
  rw [_aligned_span_from_random] at h
  dsimp only at h
  rcases hlca : _find_deepest_containing root start en with ⟨ty, ts, te, cs⟩
  rw [hlca] at h hlmem hlr
  simp only [show (PyNode.node ty ts te cs).children = cs from rfl,
    show (PyNode.node ty ts te cs).startByte = ts from rfl,
    show (PyNode.node ty ts te cs).endByte = te from rfl] at h
  have hlwf : (PyNode.node ty ts te cs).wfB = true := hlr.2.2.2
  have hposl : ∀ m ∈ (PyNode.node ty ts te cs).nodes,
      ft.contains m.type = true → m.startByte < m.endByte :=
    fun m hm hft => hpos m (nodes_trans root _ m hlmem hm) hft
  have hzero_of_filtered : ∀ c ∈ cs,
      (decide (c.startByte < c.endByte)) = false →
      ∀ s' e' : Nat, fnStrictCount ft s' e' c = 0 := by
    intro c hc hpc s' e'
    simp only [decide_eq_false_iff_not, Nat.not_lt] at hpc
    obtain ⟨_, hall, _⟩ := wfB_parts hlwf
    simp only [PyNode.children, PyNode.startByte, PyNode.endByte] at hall
    have hcw := wfAll_mem hall hc
    refine fnStrict_zero ft s' e' c hcw.2.2
      (fun m hm hft => hposl m (by
        rw [PyNode.nodes]
        exact List.mem_cons_of_mem _ (mem_nodesList_of_mem hc hm)) hft) ?_
    exact le_trans (min_le_right _ _) (le_trans hpc (le_max_right _ _))
  split at h
  · rename_i hemp
    rw [Option.some.injEq, Prod.mk.injEq] at h
    obtain ⟨rfl, rfl⟩ := h
    have hdesc := fnStrict_fdc_le ft root start en ts te hwf hpos
      (by rw [hlca]; exact le_refl _) (by rw [hlca]; exact le_refl _)
    rw [hlca] at hdesc
    have hnode := fnStrictCount_node ft ts te ty ts te cs (by
      intro hc
      exact hc.2.2 ⟨rfl, rfl⟩)
    rw [hnode] at hdesc
    rw [List.isEmpty_iff] at hemp
    have hemp2 : List.filter (fun c => decide (c.startByte < c.endByte)) cs
        = [] := hemp
    have hsum := fnStrictCountList_eq_sum ft ts te cs
    have hfz := map_sum_filter_zero
      (fun c => decide (c.startByte < c.endByte))
      (fnStrictCount ft ts te) cs
      (fun c hc hpc => hzero_of_filtered c hc hpc ts te)
    rw [hemp2] at hfz
    simp only [List.map_nil, List.sum_nil] at hfz
    omega
  · rename_i hemp
    split at h
    · rename_i hnone
      split at h
      · rename_i hftemp
        rw [List.isEmpty_iff] at hftemp
        have hb := fnStrict_le_countFn ft s e root
        rw [hftemp] at hb ⊢
        rw [countFn_nil root] at hb
        omega
      · cases h
    · rename_i i j hsome
      rw [Option.some.injEq, Prod.mk.injEq] at h
      obtain ⟨rfl, rfl⟩ := h
      rcases foldl_bestIJ_mem _ _ _ _ _ _ hsome with hmem | hinit
      · obtain ⟨hij, hjlen, hcnt⟩ := alignedPairs_mem ft _ i j hmem
        have hj2le := trim_le
          (cs.filter (fun c => decide (c.startByte < c.endByte))) i j
        have hlej2 := le_trim
          (cs.filter (fun c => decide (c.startByte < c.endByte))) i j
          hij
        have hj2len : _trim_trailing_comments
            (cs.filter (fun c => decide (c.startByte < c.endByte)))
            i j
            < (cs.filter (fun c => decide (c.startByte < c.endByte))).length :=
          lt_of_le_of_lt hj2le hjlen
        have hlca_le := fnStrict_lca_le ft ty ts te cs hlwf hposl i
          (_trim_trailing_comments
            (cs.filter (fun c => decide (c.startByte < c.endByte)))
            i j) hlej2 hj2len
        have hdesc := fnStrict_fdc_le ft root start en
          (((cs.filter (fun c => decide (c.startByte < c.endByte))).getD
            i default).startByte)
          (((cs.filter (fun c => decide (c.startByte < c.endByte))).getD
            (_trim_trailing_comments
              (cs.filter (fun c => decide (c.startByte < c.endByte)))
              i j) default).endByte)
          hwf hpos ?_ ?_
        · rw [hlca] at hdesc
          have hmono := fnRangeCount_mono ft
            (cs.filter (fun c => decide (c.startByte < c.endByte)))
            i
            (_trim_trailing_comments
              (cs.filter (fun c => decide (c.startByte < c.endByte)))
              i j) j hj2le
          omega
        · rw [hlca]
          obtain ⟨_, hall, _⟩ := wfB_parts hlwf
          simp only [PyNode.children, PyNode.startByte, PyNode.endByte]
            at hall
          have hii : i < (cs.filter
              (fun c => decide (c.startByte < c.endByte))).length :=
            lt_of_le_of_lt hij hjlen
          have hgi : (cs.filter
              (fun c => decide (c.startByte < c.endByte))).getD i default
              = (cs.filter (fun c => decide (c.startByte < c.endByte)))[i] := by
            rw [List.getD_eq_getElem?_getD, List.getElem?_eq_getElem hii]
            rfl
          rw [hgi]
          exact (wfAll_mem hall
            (List.mem_of_mem_filter (List.getElem_mem hii))).1
        · rw [hlca]
          obtain ⟨_, hall, _⟩ := wfB_parts hlwf
          simp only [PyNode.children, PyNode.startByte, PyNode.endByte]
            at hall
          have hgj : (cs.filter
              (fun c => decide (c.startByte < c.endByte))).getD
              (_trim_trailing_comments
                (cs.filter (fun c => decide (c.startByte < c.endByte)))
                i j) default
              = (cs.filter (fun c => decide (c.startByte < c.endByte)))[
                  _trim_trailing_comments
                    (cs.filter (fun c => decide (c.startByte < c.endByte)))
                    i j] := by
            rw [List.getD_eq_getElem?_getD, List.getElem?_eq_getElem hj2len]
            rfl
          rw [hgj]
          exact (wfAll_mem hall
            (List.mem_of_mem_filter (List.getElem_mem hj2len))).2.1
      · cases hinit

theorem alignedIter_props (source : Str) (root : PyNode)
    (lc : LanguageConfig) (mml : Nat) (g : Rng) (sp : CodeSpan)
    (h : (alignedIter source root lc mml g).1 = some sp) :
    ∃ s e start en : Nat,
      sp.startByte = (s : Int) ∧ sp.endByte = (e : Int) ∧
      _aligned_span_from_random root start en lc.ast_function_types
        = some (s, e) ∧
      5 ≤ e - s ∧ e - s ≤ source.length / 2 ∧
      (0 < mml → (pySlice source s e).count '\n' + 1 ≤ mml) := by
  rw [alignedIter] at h
  rcases h1 : pyRandint 20 (max 21 (source.length / 4)) g
    with ⟨spanLen, g1⟩
  rw [h1] at h
  dsimp only at h
  split at h
  · cases h
  · rcases h2 : pyRandint 1 (source.length - spanLen) g1 with ⟨start, g2⟩
    rw [h2] at h
    dsimp only at h
    split at h
    · cases h
    · rename_i s e hres
      split at h
      · cases h
      · rename_i hg1
        split at h
        · cases h
        · rename_i hg2
          injection h with h
          subst h
          refine ⟨s, e, start, start + spanLen, rfl, rfl, hres, ?_, ?_, ?_⟩
          · omega
          · omega
          · intro hm
            by_contra hc
            exact hg2 ⟨hm, by omega⟩

theorem extract_aligned_source (source : Str) (root : PyNode)
    (lc : LanguageConfig) (mml : Nat) (g : Rng) (sp : CodeSpan)
    (hsp : sp ∈ (extract_spans_ast source root lc mml g).1)
    (hkind : sp.kind = "ast_aligned_span") :
    ∃ g' : Rng, (alignedIter source root lc mml g').1 = some sp := by
  rw [extract_spans_ast] at hsp
  dsimp only at hsp
  by_cases he : (_collect_eligible_nodes lc.ast_eligible_types root).isEmpty
  · rw [if_pos he] at hsp
    dsimp only at hsp
    rcases hal : alignedLoop source root lc mml
        (max 2 (source.length / 500) - max 2 (source.length / 500) / 2) g
      with ⟨aligneds, g2⟩
    rw [hal] at hsp
    dsimp only at hsp
    rw [List.nil_append] at hsp
    exact alignedLoop_mem source root lc mml _ g sp (by rw [hal]; exact hsp)
  · rw [if_neg he] at hsp
    dsimp only at hsp
    rcases hch : pyChoices (_collect_eligible_nodes lc.ast_eligible_types
        root)
        ((_collect_eligible_nodes lc.ast_eligible_types root).map
          (fun n => max 1 (n.endByte - n.startByte)))
        (min (max 2 (source.length / 500) / 2)
          (_collect_eligible_nodes lc.ast_eligible_types root).length) g
      with ⟨chosen, g1⟩
    rw [hch] at hsp
    dsimp only at hsp
    rcases hal : alignedLoop source root lc mml
        (max 2 (source.length / 500) - max 2 (source.length / 500) / 2) g1
      with ⟨aligneds, g2⟩
    rw [hal] at hsp
    dsimp only at hsp
    rcases List.mem_append.mp hsp with hm | hm
    · obtain ⟨n, _, hf⟩ := List.mem_map.mp hm
      have hk2 : sp.kind = "ast_single_node" := by rw [← hf]
      rw [hkind] at hk2
      exact absurd hk2 (by decide)
    · exact alignedLoop_mem source root lc mml _ g1 sp
        (by rw [hal]; exact hm)

/-- C7 (amended): every `ast_aligned_span` emitted by `extract_spans_ast`
on a well-formed tree whose function-type nodes have positive width has
byte width in `[5, len(source)/2]`, respects `max_middle_lines` when that
cap is positive, and STRICTLY contains at most one function-type node
(contained in the span's range but not equal to it).  The spec's stronger
claim — that the span overlaps at most one function-type node — is refuted
by `C7_counterexample`, where the span coincides with an outer function that
tiles the LCA and also contains an inner function. -/
theorem C7_aligned_span_constraints (source : Str) (root : PyNode)
    (lc : LanguageConfig) (mml : Nat) (g : Rng) (sp : CodeSpan)
    (hwf : root.wfB = true)
    (hpos : ∀ m ∈ root.nodes,
      lc.ast_function_types.contains m.type = true →
        m.startByte < m.endByte)
    (hsp : sp ∈ (extract_spans_ast source root lc mml g).1)
    (hkind : sp.kind = "ast_aligned_span") :
    (∃ s e : Nat, sp.startByte = (s : Int) ∧ sp.endByte = (e : Int) ∧
      5 ≤ e - s ∧ e - s ≤ source.length / 2 ∧
      (0 < mml → (pySlice source s e).count '\n' + 1 ≤ mml) ∧
      fnStrictCount lc.ast_function_types s e root ≤ 1) ∧
    (lc.ast_function_types ≠ [] → ∀ a b : Nat,
      ((_find_deepest_containing root a b).children.filter
        (fun c => decide (c.startByte < c.endByte))) ≠ [] →
      alignedPairs lc.ast_function_types
        ((_find_deepest_containing root a b).children.filter
          (fun c => decide (c.startByte < c.endByte))) = [] →
      _aligned_span_from_random root a b lc.ast_function_types = none) := by
  constructor
  · obtain ⟨g', hg'⟩ := extract_aligned_source source root lc mml g sp hsp
      hkind
    obtain ⟨s, e, start, en, hsb, heb, hres, hw1, hw2, hlines⟩ :=
      alignedIter_props source root lc mml g' sp hg'
    exact ⟨s, e, hsb, heb, hw1, hw2, hlines,
      aligned_span_fn_bound root lc.ast_function_types start en s e hwf
        hpos hres⟩
  · intro hft a b hne hpairs
    rw [_aligned_span_from_random]
    dsimp only
    rw [if_neg (by
      intro hc
      exact hne (List.isEmpty_iff.mp hc))]
    rw [hpairs, List.foldl_nil]
    dsimp only
    rw [if_neg (by
      intro hc
      exact hft (List.isEmpty_iff.mp hc))]

def c7Source : Str := List.replicate 400 'a'

def c7Inner : PyNode := .node "function_definition" 25 50 []

def c7Outer : PyNode :=
  .node "function_definition" 10 60
    [.node "def" 10 13 [], .node "identifier" 14 17 [],
     .node "parameters" 17 19 [], .node "block" 20 60 [c7Inner]]

def c7Root : PyNode := .node "module" 0 400 [c7Outer]

def c7Lc : LanguageConfig :=
  { ast_function_types := ["function_definition"] }

def c7Span : CodeSpan :=
  { kind := "ast_aligned_span", startLine := 0, endLine := 0,
    startByte := 10, endByte := 60 }

set_option maxRecDepth 8000 in
/-- C7 witness: on a 400-byte source with a module tree holding one outer
function (children `def`/`identifier`/`parameters`/`block`, the block
containing an inner function), oracle `[23, 11]` makes the aligned-span
generator emit the span `(10, 60)`; the amended properties hold for it. -/
theorem C7_aligned_span_constraints_witness :
    (∃ s e : Nat, c7Span.startByte = (s : Int) ∧
      c7Span.endByte = (e : Int) ∧
      5 ≤ e - s ∧ e - s ≤ c7Source.length / 2 ∧
      (0 < 0 → (pySlice c7Source s e).count '\n' + 1 ≤ 0) ∧
      fnStrictCount c7Lc.ast_function_types s e c7Root ≤ 1) ∧
    (c7Lc.ast_function_types ≠ [] → ∀ a b : Nat,
      ((_find_deepest_containing c7Root a b).children.filter
        (fun c => decide (c.startByte < c.endByte))) ≠ [] →
      alignedPairs c7Lc.ast_function_types
        ((_find_deepest_containing c7Root a b).children.filter
          (fun c => decide (c.startByte < c.endByte))) = [] →
      _aligned_span_from_random c7Root a b c7Lc.ast_function_types
        = none) :=
  C7_aligned_span_constraints c7Source c7Root c7Lc 0 ⟨[23, 11]⟩ c7Span
    (by decide) (by decide) (by decide) rfl

/-- C7 counterexample: the same run emits exactly the span `(10, 60)`, and
that span overlaps (indeed fully contains) TWO function-type nodes: the
outer function `[10, 60)` it coincides with and the inner one `[25, 50)`.
This refutes the claim that an emitted span overlaps at most one
function-type node: the generator's prefix-sum constraint counts functions
only inside the LCA's children, never the LCA itself. -/
theorem C7_counterexample :
    (extract_spans_ast c7Source c7Root c7Lc 0 ⟨[23, 11]⟩).1 = [c7Span] ∧
      fnOverlapCount c7Lc.ast_function_types 10 60 c7Root = 2 := by
  decide

/-! ## C4 (continued): bounds for the AST and post-comment generators -/

mutual
theorem collectElig_mem : ∀ (el : List String) (t : PyNode) (n : PyNode),
    n ∈ _collect_eligible_nodes el t →
    n ∈ t.nodes ∧ 5 < n.endByte - n.startByte
  | el, .node ty s e cs, n => by
    intro h
    rw [_collect_eligible_nodes] at h
    rcases List.mem_append.mp h with h1 | h2
    · split at h1
      · rcases List.mem_singleton.mp h1 with rfl
        rename_i hcond
        refine ⟨?_, hcond.2⟩
        rw [PyNode.nodes]
        exact List.mem_cons_self _ _
      · cases h1
    · obtain ⟨hm, hw⟩ := collectEligList_mem el cs n h2
      refine ⟨?_, hw⟩
      rw [PyNode.nodes]
      exact List.mem_cons_of_mem _ hm
theorem collectEligList_mem :
    ∀ (el : List String) (cs : List PyNode) (n : PyNode),
      n ∈ collectEligList el cs →
      n ∈ nodesList cs ∧ 5 < n.endByte - n.startByte
  | _, [], n => by
    intro h
    rw [collectEligList] at h
    cases h
  | el, c :: r, n => by
    intro h
    rw [collectEligList] at h
    rcases List.mem_append.mp h with h1 | h2
    · obtain ⟨hm, hw⟩ := collectElig_mem el c n h1
      refine ⟨?_, hw⟩
      rw [nodesList]
      exact List.mem_append_left _ hm
    · obtain ⟨hm, hw⟩ := collectEligList_mem el r n h2
      refine ⟨?_, hw⟩
      rw [nodesList]
      exact List.mem_append_right _ hm
end

mutual
theorem postComment_mem : ∀ (source : Str) (t : PyNode) (sp : CodeSpan),
    sp ∈ _collect_comment_spans source t →
    ∃ n ∈ t.nodes, sp.startByte = (n.startByte : Int) ∧
      sp.endByte = (n.endByte : Int) ∧ 5 < n.endByte - n.startByte
  | source, .node ty s e cs, sp => by
    intro h
    rw [_collect_comment_spans] at h
    obtain ⟨n, hn, hprops⟩ := postWalk_mem source cs sp h
    refine ⟨n, ?_, hprops⟩
    rw [PyNode.nodes]
    exact List.mem_cons_of_mem _ hn
theorem postWalk_mem : ∀ (source : Str) (cs : List PyNode) (sp : CodeSpan),
    sp ∈ postWalk source cs →
    ∃ n ∈ nodesList cs, sp.startByte = (n.startByte : Int) ∧
      sp.endByte = (n.endByte : Int) ∧ 5 < n.endByte - n.startByte
  | source, [], sp => by
    intro h
    rw [postWalk] at h
    cases h
  | source, [c], sp => by
    intro h
    rw [postWalk] at h
    split at h
    · cases h
    · obtain ⟨n, hn, hp⟩ := postComment_mem source c sp h
      refine ⟨n, ?_, hp⟩
      rw [nodesList]
      exact List.mem_append_left _ hn
  | source, c :: next :: rest, sp => by
    intro h
    rw [postWalk] at h
    rcases List.mem_append.mp h with h01 | h2
    · rcases List.mem_append.mp h01 with h0 | hrec
      · split at h0
        · rcases List.mem_singleton.mp h0 with rfl
          rename_i hcond
          refine ⟨next, ?_, rfl, rfl, hcond.2.2.2⟩
          rw [nodesList]
          refine List.mem_append_right _ ?_
          rw [nodesList]
          exact List.mem_append_left _ (self_mem_nodes next)
        · cases h0
      · split at hrec
        · cases hrec
        · obtain ⟨n, hn, hp⟩ := postComment_mem source c sp hrec
          refine ⟨n, ?_, hp⟩
          rw [nodesList]
          exact List.mem_append_left _ hn
    · obtain ⟨n, hn, hp⟩ := postWalk_mem source (next :: rest) sp h2
      refine ⟨n, ?_, hp⟩
      rw [nodesList]
      exact List.mem_append_right _ hn
end

/-- The byte range `_aligned_span_from_random` returns ends within the
root's range. -/
theorem aligned_span_range (root : PyNode) (ft : List String)
    (start en s e : Nat) (hwf : root.wfB = true)
    (h : _aligned_span_from_random root start en ft = some (s, e)) :
    e ≤ root.endByte := by
  have hlmem := fd_mem root start en
  have hlr := nodes_range root hwf _ hlmem
  rw [_aligned_span_from_random] at h
  dsimp only at h
  rcases hlca : _find_deepest_containing root start en with ⟨ty, ts, te, cs⟩
  rw [hlca] at h hlmem hlr
  simp only [show (PyNode.node ty ts te cs).children = cs from rfl,
    show (PyNode.node ty ts te cs).startByte = ts from rfl,
    show (PyNode.node ty ts te cs).endByte = te from rfl] at h
  have hte : te ≤ root.endByte := hlr.2.1
  have hlwf : (PyNode.node ty ts te cs).wfB = true := hlr.2.2.2
  obtain ⟨hse, hall, _⟩ := wfB_parts hlwf
  simp only [PyNode.children, PyNode.startByte, PyNode.endByte] at hall
  split at h
  · rw [Option.some.injEq, Prod.mk.injEq] at h
    obtain ⟨rfl, rfl⟩ := h
    exact hte
  · split at h
    · rename_i hnone
      split at h
      · rw [Option.some.injEq] at h
        have hbr := foldl_none_range _ _ _ _ _ hnone
        rw [hbr] at h
        dsimp only at h
        rw [Prod.mk.injEq] at h
        obtain ⟨rfl, rfl⟩ := h
        exact hte
      · cases h
    · rename_i i j hsome
      rw [Option.some.injEq, Prod.mk.injEq] at h
      obtain ⟨rfl, rfl⟩ := h
      rcases foldl_bestIJ_mem _ _ _ _ _ _ hsome with hmem | hinit
      · obtain ⟨hij, hjlen, _⟩ := alignedPairs_mem ft _ i j hmem
        have hj2le := trim_le
          (cs.filter (fun c => decide (c.startByte < c.endByte))) i j
        have hj2len : _trim_trailing_comments
            (cs.filter (fun c => decide (c.startByte < c.endByte))) i j
            < (cs.filter (fun c => decide (c.startByte < c.endByte))).length :=
          lt_of_le_of_lt hj2le hjlen
        have hgj : (cs.filter
            (fun c => decide (c.startByte < c.endByte))).getD
            (_trim_trailing_comments
              (cs.filter (fun c => decide (c.startByte < c.endByte))) i j)
            default
            = (cs.filter (fun c => decide (c.startByte < c.endByte)))[
                _trim_trailing_comments
                  (cs.filter (fun c => decide (c.startByte < c.endByte)))
                  i j] := by
          rw [List.getD_eq_getElem?_getD, List.getElem?_eq_getElem hj2len]
          rfl
        rw [hgj]
        exact le_trans (wfAll_mem hall
          (List.mem_of_mem_filter (List.getElem_mem hj2len))).2.1 hte
      · cases hinit

theorem extract_mem_cases (source : Str) (root : PyNode)
    (lc : LanguageConfig) (mml : Nat) (g : Rng) (sp : CodeSpan)
    (hsp : sp ∈ (extract_spans_ast source root lc mml g).1) :
    (∃ n, n ∈ _collect_eligible_nodes lc.ast_eligible_types root ∧
      sp.startByte = (n.startByte : Int) ∧ sp.endByte = (n.endByte : Int)) ∨
    ∃ g' : Rng, (alignedIter source root lc mml g').1 = some sp := by
  rw [extract_spans_ast] at hsp
  dsimp only at hsp
  by_cases he : (_collect_eligible_nodes lc.ast_eligible_types root).isEmpty
  · rw [if_pos he] at hsp
    dsimp only at hsp
    rcases hal : alignedLoop source root lc mml
        (max 2 (source.length / 500) - max 2 (source.length / 500) / 2) g
      with ⟨aligneds, g2⟩
    rw [hal] at hsp
    dsimp only at hsp
    rw [List.nil_append] at hsp
    exact Or.inr (alignedLoop_mem source root lc mml _ g sp
      (by rw [hal]; exact hsp))
  · rw [if_neg he] at hsp
    dsimp only at hsp
    rcases hch : pyChoices (_collect_eligible_nodes lc.ast_eligible_types
        root)
        ((_collect_eligible_nodes lc.ast_eligible_types root).map
          (fun n => max 1 (n.endByte - n.startByte)))
        (min (max 2 (source.length / 500) / 2)
          (_collect_eligible_nodes lc.ast_eligible_types root).length) g
      with ⟨chosen, g1⟩
    rw [hch] at hsp
    dsimp only at hsp
    rcases hal : alignedLoop source root lc mml
        (max 2 (source.length / 500) - max 2 (source.length / 500) / 2) g1
      with ⟨aligneds, g2⟩
    rw [hal] at hsp
    dsimp only at hsp
    have hpos : 0 < ((_collect_eligible_nodes lc.ast_eligible_types
        root).map (fun n => max 1 (n.endByte - n.startByte))).sum := by
      have h1 := sum_ge_length_of_ones
        ((_collect_eligible_nodes lc.ast_eligible_types root).map
          (fun n => max 1 (n.endByte - n.startByte)))
        (by
          intro x hx
          obtain ⟨n, _, hn⟩ := List.mem_map.mp hx
          rw [← hn]
          exact le_max_left _ _)
      have h2 : 0 < (_collect_eligible_nodes lc.ast_eligible_types
          root).length := by
        rw [List.length_pos]
        intro hnil
        rw [hnil] at he
        exact he rfl
      rw [List.length_map] at h1
      omega
    have hmlen : ((_collect_eligible_nodes lc.ast_eligible_types root).map
        (fun n => max 1 (n.endByte - n.startByte))).length
        = (_collect_eligible_nodes lc.ast_eligible_types root).length :=
      List.length_map _ _
    rcases List.mem_append.mp hsp with hm | hm
    · obtain ⟨n, hn, hf⟩ := List.mem_map.mp hm
      refine Or.inl ⟨n, pyChoices_mem _ _ hpos hmlen _ g n
        (by rw [hch]; exact hn), ?_, ?_⟩
      · rw [← hf]
      · rw [← hf]
    · exact Or.inr (alignedLoop_mem source root lc mml _ g1 sp
        (by rw [hal]; exact hm))

def c4Root : PyNode := .node "module" 0 26 []

/-- C4 (amended): every byte-locator span emitted by any of the five
generators — `generate_incomplete_line_spans`,
`generate_bracket_context_spans`, `generate_post_comment_spans`
(`dev_incomplete_line`, `dev_bracket_content`, `dev_post_comment`) and
`extract_spans_ast` (`ast_single_node`, `ast_aligned_span`) — satisfies
`0 ≤ start_byte < end_byte ≤ len(source)`, given a well-formed parse tree
whose root range lies within the source.  The spec's further bound
`end_byte − start_byte ≤ len(source)/2` fails: `C4_counterexample` exhibits
a `dev_incomplete_line` span covering 23 of the 26 source characters. -/
theorem C4_span_bounds (source : Str) (tree : Option PyNode)
    (root : PyNode) (lc : LanguageConfig) (mml : Nat) (g : Rng)
    (sp : CodeSpan)
    (hw : ∀ t, tree = some t → t.wfB = true ∧ t.endByte ≤ source.length)
    (hwf : root.wfB = true) (hlen : root.endByte ≤ source.length)
    (hsp : sp ∈ (generate_incomplete_line_spans source tree lc g).1 ∨
           sp ∈ (generate_bracket_context_spans source tree lc g).1 ∨
           sp ∈ (generate_post_comment_spans source tree lc g).1 ∨
           sp ∈ (extract_spans_ast source root lc mml g).1) :
    0 ≤ sp.startByte ∧ sp.startByte < sp.endByte ∧
      sp.endByte ≤ (source.length : Int) := by
  rcases hsp with hsp | hsp | hsp | hsp
  · exact devbehavior_mem_bounds source tree lc g sp hw (Or.inl hsp)
  · exact devbehavior_mem_bounds source tree lc g sp hw (Or.inr hsp)
  · rw [generate_post_comment_spans.eq_def] at hsp
    cases tree with
    | none => cases hsp
    | some t =>
      obtain ⟨hwt, hlt⟩ := hw t rfl
      dsimp only at hsp
      have hcol : ∃ n ∈ t.nodes, sp.startByte = (n.startByte : Int) ∧
          sp.endByte = (n.endByte : Int) ∧ 5 < n.endByte - n.startByte := by
        split at hsp
        · exact postComment_mem source t sp
            (pySampleIdx_subset _ _ _ sp hsp)
        · exact postComment_mem source t sp hsp
      obtain ⟨n, hn, hsb, heb, hwid⟩ := hcol
      have hr := nodes_range t hwt n hn
      rw [hsb, heb]
      refine ⟨Int.ofNat_nonneg _, ?_, ?_⟩
      · exact_mod_cast (by omega : n.startByte < n.endByte)
      · exact_mod_cast le_trans hr.2.1 hlt
  · rcases extract_mem_cases source root lc mml g sp hsp with
      ⟨n, hnel, hsb, heb⟩ | ⟨g', hg'⟩
    · obtain ⟨hmem, hwid⟩ := collectElig_mem _ root n hnel
      have hr := nodes_range root hwf n hmem
      rw [hsb, heb]
      refine ⟨Int.ofNat_nonneg _, ?_, ?_⟩
      · exact_mod_cast (by omega : n.startByte < n.endByte)
      · exact_mod_cast le_trans hr.2.1 hlen
    · obtain ⟨s, e, start, en, hsb, heb, hres, hw1, _, _⟩ :=
        alignedIter_props source root lc mml g' sp hg'
      have hrange := aligned_span_range root lc.ast_function_types start en
        s e hwf hres
      rw [hsb, heb]
      refine ⟨Int.ofNat_nonneg _, ?_, ?_⟩
      · exact_mod_cast (by omega : s < e)
      · exact_mod_cast le_trans hrange hlen

/-- C4 witness: on a single-line 26-character source with no developer tree
and an empty 26-byte module root, oracle `[0, 0]` makes the intra-line
strategy emit the span `(3, 26)`, and the amended bounds hold for it. -/
theorem C4_span_bounds_witness :
    c4Span ∈ (generate_incomplete_line_spans c4Source none {} ⟨[0, 0]⟩).1 ∧
      0 ≤ c4Span.startByte ∧ c4Span.startByte < c4Span.endByte ∧
        c4Span.endByte ≤ (c4Source.length : Int) :=
  ⟨by decide, C4_span_bounds c4Source none c4Root {} 0 ⟨[0, 0]⟩ c4Span
    (by intro t ht; cases ht) (by decide) (by decide)
    (Or.inl (by decide))⟩
